import Mathlib

/- Verification development for the JSON → Access-database converter
   (src/backend/json2mdb.py).

   Shallow embedding conventions:
   * JSON values (what json.load produces, plus datetime instances) are the
     inductive type JValue; Python floats are modelled by their decimal
     representation: JValue.float m e denotes the decimal m / 10 ^ (e + 1),
     which is exact for every value json.dumps prints via repr.
   * Python dicts are ordered association lists (insertion order), matching
     dict iteration order.
   * Exceptions are modelled with Except PyError; the three RuntimeError
     sites of _load_json / _create_mdb are distinguished by the error
     taxonomy names the documentation gives them, and Python dynamic-type
     failures (AttributeError / TypeError / KeyError) get their own
     constructors.
   * File-system and store side effects (os.remove, shutil.copy, DDL, DML)
     are recorded as an effect trace. -/

namespace Json2Mdb

/-! ### Character and digit utilities -/

/-- Decimal digit test on a character, by code point. -/
def isDigitC (c : Char) : Bool := 48 ≤ c.toNat && c.toNat ≤ 57

/-- Value of a decimal digit character. -/
def dVal (c : Char) : Nat := c.toNat - 48

/-- Value of a run of decimal digit characters (most significant first). -/
def digitsVal (l : List Char) : Nat := l.foldl (fun a c => 10 * a + dVal c) 0

/-- The decimal digit character for a value below ten. -/
def dChar : Nat → Char
  | 0 => '0'
  | 1 => '1'
  | 2 => '2'
  | 3 => '3'
  | 4 => '4'
  | 5 => '5'
  | 6 => '6'
  | 7 => '7'
  | 8 => '8'
  | _ => '9'

/-- Decimal digits of a natural number, most significant first, no leading
zeros (Python's str/repr of a nonnegative int). -/
def natDigits (n : Nat) : List Char :=
  if n < 10 then [dChar n]
  else natDigits (n / 10) ++ [dChar (n % 10)]
decreasing_by exact Nat.div_lt_self (by omega) (by omega)

/-- Decimal representation of a Python int. -/
def intChars (m : Int) : List Char :=
  if m < 0 then '-' :: natDigits m.natAbs else natDigits m.natAbs

/-- Split off the longest leading run of decimal digits. -/
def spanDigits : List Char → List Char × List Char
  | [] => ([], [])
  | c :: cs =>
    if isDigitC c then
      let p := spanDigits cs
      (c :: p.1, p.2)
    else ([], c :: cs)

/-- Does the first list lead (is it a prefix of) the second? -/
def listLeads : List Char → List Char → Bool
  | [], _ => true
  | _ :: _, [] => false
  | a :: as, b :: bs => a == b && listLeads as bs

/-- Is the first list a contiguous sublist of the second?  Models Python's
substring containment test `needle in haystack`. -/
def subListOf : List Char → List Char → Bool
  | needle, [] => needle.isEmpty
  | needle, c :: cs => listLeads needle (c :: cs) || subListOf needle cs

/-! ### The datetime model

A Python `datetime.datetime` as far as this program observes it: calendar
and clock fields plus an optional fixed utc offset in microseconds. -/

structure PyTime where
  year : Nat
  month : Nat
  day : Nat
  hour : Nat
  minute : Nat
  second : Nat
  usec : Nat
  tzOffUsec : Option Int
deriving DecidableEq

/-- Leap-year rule of the proleptic Gregorian calendar (Python's
`calendar.isleap`). -/
def isLeap (y : Nat) : Bool := y % 4 == 0 && (y % 100 != 0 || y % 400 == 0)

/-- Days in a month, as validated by the `datetime.date` constructor. -/
def daysInMonth (y m : Nat) : Nat :=
  if m == 2 then (if isLeap y then 29 else 28)
  else if m == 4 || m == 6 || m == 9 || m == 11 then 30
  else 31

/-- Read exactly two digit characters. -/
def twoDigits : List Char → Option Nat
  | [a, b] => if isDigitC a && isDigitC b then some (10 * dVal a + dVal b) else none
  | _ => none

/-- CPython's `_parse_isoformat_date`: exactly `YYYY-MM-DD`, digits and
dashes, then range-validated by the `date` constructor
(`MINYEAR ≤ year`, `1 ≤ month ≤ 12`, `1 ≤ day ≤ daysInMonth`). -/
def parseIsoDate (d : List Char) : Option (Nat × Nat × Nat) :=
  match d with
  | [y1, y2, y3, y4, s1, m1, m2, s2, d1, d2] =>
    if isDigitC y1 && isDigitC y2 && isDigitC y3 && isDigitC y4 &&
       s1 == '-' && isDigitC m1 && isDigitC m2 &&
       s2 == '-' && isDigitC d1 && isDigitC d2 then
      let y := digitsVal [y1, y2, y3, y4]
      let mo := 10 * dVal m1 + dVal m2
      let dy := 10 * dVal d1 + dVal d2
      if 1 ≤ y && 1 ≤ mo && mo ≤ 12 && 1 ≤ dy && dy ≤ daysInMonth y mo then
        some (y, mo, dy)
      else none
    else none
  | _ => none

/-- CPython's `_parse_hh_mm_ss_ff`: `HH[:MM[:SS[.fff or .ffffff]]]` with
two-digit components and a 3- or 6-digit fraction; no range validation
here. Returns (hour, minute, second, microsecond). -/
def parseHms (t : List Char) : Option (Nat × Nat × Nat × Nat) :=
  match t with
  | a :: b :: rest1 =>
    match twoDigits [a, b] with
    | none => none
    | some h =>
      match rest1 with
      | [] => some (h, 0, 0, 0)
      | ':' :: c :: d :: rest2 =>
        match twoDigits [c, d] with
        | none => none
        | some mi =>
          match rest2 with
          | [] => some (h, mi, 0, 0)
          | ':' :: e :: f :: rest3 =>
            match twoDigits [e, f] with
            | none => none
            | some se =>
              match rest3 with
              | [] => some (h, mi, se, 0)
              | '.' :: fr =>
                if fr.length == 3 && fr.all isDigitC then
                  some (h, mi, se, 1000 * digitsVal fr)
                else if fr.length == 6 && fr.all isDigitC then
                  some (h, mi, se, digitsVal fr)
                else none
              | _ => none
          | _ => none
      | _ => none
  | _ => none

/-- Index of the first occurrence of a character, or none (Python
`str.find`, success cases). -/
def findChar (c : Char) : List Char → Option Nat
  | [] => none
  | d :: ds => if d == c then some 0 else (findChar c ds).map (· + 1)

/-- CPython's `_parse_isoformat_time`: split off a timezone part at the
first `-` (or else the first `+`), parse both parts with `_parse_hh_mm_ss_ff`;
the tz string must have length 5, 8 or 15 and the resulting offset must be
strictly less than 24 hours in magnitude (the `timezone` bound); the clock
fields are then range-validated by the `time` constructor. -/
def parseIsoTime (t : List Char) : Option (Nat × Nat × Nat × Nat × Option Int) :=
  if t.length < 2 then none
  else
    let tzPos : Option Nat :=
      match findChar '-' t with
      | some i => some i
      | none => findChar '+' t
    let timestr := match tzPos with
      | some i => t.take i
      | none => t
    match parseHms timestr with
    | none => none
    | some (h, mi, se, us) =>
      let tzi : Option (Option Int) :=
        match tzPos with
        | none => some none
        | some i =>
          let tzstr := t.drop (i + 1)
          if tzstr.length == 5 || tzstr.length == 8 || tzstr.length == 15 then
            match parseHms tzstr with
            | none => none
            | some (th, tm, ts, tu) =>
              let mag : Nat := ((th * 60 + tm) * 60 + ts) * 1000000 + tu
              if mag == 0 then some (some 0)
              else if mag < 24 * 3600 * 1000000 then
                some (some (if t.get? i == some '-' then -(mag : Int) else (mag : Int)))
              else none
          else none
      match tzi with
      | none => none
      | some off =>
        if h ≤ 23 && mi ≤ 59 && se ≤ 59 then some (h, mi, se, us, off) else none

/-- CPython's `datetime.fromisoformat` (pre-3.11 strict grammar): the first
ten characters are the date, character ten is an arbitrary separator, the
rest (from index eleven) is the time; an empty time part means midnight.
The `int()` leniencies of the reference implementation (leading `+`,
surrounding whitespace, a short final day field) are not modelled: every
numeric field here must consist of exactly the stated digit characters. -/
def pyFromIsoformat (s : String) : Option PyTime :=
  let cs := s.data
  match parseIsoDate (cs.take 10) with
  | none => none
  | some (y, mo, dy) =>
    let tstr := cs.drop 11
    if tstr.isEmpty then some ⟨y, mo, dy, 0, 0, 0, 0, none⟩
    else
      match parseIsoTime tstr with
      | none => none
      | some (h, mi, se, us, off) => some ⟨y, mo, dy, h, mi, se, us, off⟩

/-- Python `value.replace("Z", "+00:00")` specialised to the single-character
pattern used in `_is_datetime`: every occurrence of `Z` is replaced. -/
def replaceZ : List Char → List Char
  | [] => []
  | c :: cs => if c == 'Z' then '+' :: '0' :: '0' :: ':' :: '0' :: '0' :: replaceZ cs
               else c :: replaceZ cs

/-! ### JSON values -/

/-- A Python value as this program sees them: everything `json.load` can
produce, plus `datetime` instances (`JValue.time`), which `_infer_type` and
`_normalize_record` test for.  `float m e` stands for the decimal
`m / 10 ^ (e + 1)`. -/
inductive JValue where
  | null
  | bool (b : Bool)
  | int (n : Int)
  | float (m : Int) (e : Nat)
  | str (s : String)
  | time (t : PyTime)
  | arr (xs : List JValue)
  | obj (fields : List (String × JValue))

/-- A parsed JSON object / Python dict: field names with values, in
insertion order. -/
abbrev Record := List (String × JValue)

/-- An ordered schema: column names with their Access column-type text. -/
abbrev Schema := List (String × String)

mutual
/-- Structural equality of values, modelling Python `==` as the program
uses it (string-keyed containment tests only). -/
def jbeq : JValue → JValue → Bool
  | .null, .null => true
  | .bool a, .bool b => a == b
  | .int a, .int b => a == b
  | .float a b, .float c d => a == c && b == d
  | .str a, .str b => a == b
  | .time a, .time b => decide (a = b)
  | .arr xs, .arr ys => jbeqList xs ys
  | .obj fs, .obj gs => jbeqFields fs gs
  | _, _ => false
def jbeqList : List JValue → List JValue → Bool
  | [], [] => true
  | x :: xs, y :: ys => jbeq x y && jbeqList xs ys
  | _, _ => false
def jbeqFields : List (String × JValue) → List (String × JValue) → Bool
  | [], [] => true
  | (k, x) :: fs, (l, y) :: gs => k == l && jbeq x y && jbeqFields fs gs
  | _, _ => false
end

/-! ### Errors

The documentation's taxonomy names for the three RuntimeError sites of
`_load_json` / `_create_mdb`, plus the dynamic errors Python itself can
raise on this code path. -/

inductive PyError where
  | notFoundError
  | parseError
  | missingDataError
  | templateError
  | attributeError
  | typeError
  | keyError
deriving DecidableEq

/-! ### json.dumps(value, ensure_ascii=False) -/

/-- Lowercase hexadecimal digit character. -/
def hChar : Nat → Char
  | 0 => '0'
  | 1 => '1'
  | 2 => '2'
  | 3 => '3'
  | 4 => '4'
  | 5 => '5'
  | 6 => '6'
  | 7 => '7'
  | 8 => '8'
  | 9 => '9'
  | 10 => 'a'
  | 11 => 'b'
  | 12 => 'c'
  | 13 => 'd'
  | 14 => 'e'
  | _ => 'f'

/-- Four lowercase hex digits (Python's `'\\u%04x'` for code points below
0x10000). -/
def toHex4 (n : Nat) : List Char :=
  [hChar (n / 4096 % 16), hChar (n / 256 % 16), hChar (n / 16 % 16), hChar (n % 16)]

/-- Per-character JSON string escaping with `ensure_ascii=False`: only the
quote, the backslash and control characters are escaped; everything else,
non-ASCII included, is emitted unchanged. -/
def escChar (c : Char) : List Char :=
  if c = '"' then ['\\', '"']
  else if c = '\\' then ['\\', '\\']
  else if c = '\x08' then ['\\', 'b']
  else if c = '\t' then ['\\', 't']
  else if c = '\n' then ['\\', 'n']
  else if c = '\x0c' then ['\\', 'f']
  else if c = '\r' then ['\\', 'r']
  else if c.toNat < 32 then '\\' :: 'u' :: toHex4 c.toNat
  else [c]

/-- Escape every character of a string body. -/
def escapeL : List Char → List Char
  | [] => []
  | c :: cs => escChar c ++ escapeL cs

/-- Python `repr` of the float denoted by `m / 10 ^ (e + 1)`: integer part,
a dot, then exactly `e + 1` fraction digits. -/
def floatChars (m : Int) (e : Nat) : List Char :=
  let den := 10 ^ (e + 1)
  let ds := natDigits (m.natAbs % den)
  (if m < 0 then ['-'] else []) ++
    natDigits (m.natAbs / den) ++
    '.' :: (List.replicate (e + 1 - ds.length) '0' ++ ds)

mutual
/-- The text `json.dumps(v, ensure_ascii=False)` produces when `v` is
serializable (default separators `", "` and `": "`, insertion order
preserved).  The junk value for `JValue.time` is never used: on a
`datetime`, `json.dumps` raises instead — see `json_dumps`. -/
def dumpsChars : JValue → List Char
  | .null => "null".data
  | .bool true => "true".data
  | .bool false => "false".data
  | .int n => intChars n
  | .float m e => floatChars m e
  | .str s => '"' :: escapeL s.data ++ ['"']
  | .time _ => []
  | .arr xs => '[' :: dumpsItems xs ++ [']']
  | .obj fs => '\x7b' :: dumpsFields fs ++ ['\x7d']
def dumpsItems : List JValue → List Char
  | [] => []
  | [v] => dumpsChars v
  | v :: vs => dumpsChars v ++ ',' :: ' ' :: dumpsItems vs
def dumpsFields : List (String × JValue) → List Char
  | [] => []
  | [(k, v)] => '"' :: escapeL k.data ++ '"' :: ':' :: ' ' :: dumpsChars v
  | (k, v) :: fs =>
    '"' :: escapeL k.data ++ '"' :: ':' :: ' ' :: dumpsChars v ++ ',' :: ' ' :: dumpsFields fs
end

mutual
/-- Serializability for `json.dumps`: true unless a `datetime` instance
occurs anywhere in the value. -/
def dumps_ok : JValue → Bool
  | .time _ => false
  | .arr xs => dumpsOkList xs
  | .obj fs => dumpsOkFields fs
  | _ => true
def dumpsOkList : List JValue → Bool
  | [] => true
  | v :: vs => dumps_ok v && dumpsOkList vs
def dumpsOkFields : List (String × JValue) → Bool
  | [] => true
  | kv :: fs => dumps_ok kv.2 && dumpsOkFields fs
end

/-- `json.dumps(v, ensure_ascii=False)`: the serialized text, or a
`TypeError` when the value contains something unserializable. -/
def json_dumps (v : JValue) : Except PyError String :=
  if dumps_ok v then .ok (String.mk (dumpsChars v)) else .error .typeError

/-! ### json.loads

An executable model of Python's JSON reader, used to state the round-trip
property for composite values.  Modelling boundaries: the nonstandard
`NaN` / `Infinity` literals and lone surrogates (both representable in
Python but not in this value model) are rejected. -/

/-- JSON whitespace. -/
def isWsC (c : Char) : Bool := c == ' ' || c == '\t' || c == '\n' || c == '\r'

/-- Drop leading JSON whitespace. -/
def skipWs : List Char → List Char
  | [] => []
  | c :: cs => if isWsC c then skipWs cs else c :: cs

/-- Value of one hexadecimal digit character (either case). -/
def hexDVal (c : Char) : Option Nat :=
  if isDigitC c then some (dVal c)
  else if 97 ≤ c.toNat && c.toNat ≤ 102 then some (c.toNat - 87)
  else if 65 ≤ c.toNat && c.toNat ≤ 70 then some (c.toNat - 55)
  else none

/-- The character with the given code point, when it is a unicode scalar
value. -/
def charOfValid (n : Nat) : Option Char :=
  if n < 0xd800 ∨ (0xe000 ≤ n ∧ n < 0x110000) then some (Char.ofNat n) else none

def parseStrBodyF : Nat → List Char → Option (List Char × List Char)
  | 0, _ => none
  | _, [] => none
  | fuel + 1, c :: rest =>
    if c = '"' then some ([], rest)
    else if c = '\\' then
      match rest with
      | '"' :: r => (parseStrBodyF fuel r).map (fun p => ('"' :: p.1, p.2))
      | '\\' :: r => (parseStrBodyF fuel r).map (fun p => ('\\' :: p.1, p.2))
      | '/' :: r => (parseStrBodyF fuel r).map (fun p => ('/' :: p.1, p.2))
      | 'b' :: r => (parseStrBodyF fuel r).map (fun p => ('\x08' :: p.1, p.2))
      | 'f' :: r => (parseStrBodyF fuel r).map (fun p => ('\x0c' :: p.1, p.2))
      | 'n' :: r => (parseStrBodyF fuel r).map (fun p => ('\n' :: p.1, p.2))
      | 'r' :: r => (parseStrBodyF fuel r).map (fun p => ('\r' :: p.1, p.2))
      | 't' :: r => (parseStrBodyF fuel r).map (fun p => ('\t' :: p.1, p.2))
      | 'u' :: h1 :: h2 :: h3 :: h4 :: r =>
        (match hexDVal h1, hexDVal h2, hexDVal h3, hexDVal h4 with
         | some ha, some hb, some hc, some hd =>
           let n := ((ha * 16 + hb) * 16 + hc) * 16 + hd
           if 0xd800 ≤ n ∧ n ≤ 0xdbff then
             match r with
             | '\\' :: 'u' :: g1 :: g2 :: g3 :: g4 :: r2 =>
               (match hexDVal g1, hexDVal g2, hexDVal g3, hexDVal g4 with
                | some he, some hf, some hg, some hh =>
                  let m := ((he * 16 + hf) * 16 + hg) * 16 + hh
                  if 0xdc00 ≤ m ∧ m ≤ 0xdfff then
                    (parseStrBodyF fuel r2).map (fun p =>
                      (Char.ofNat (0x10000 + (n - 0xd800) * 0x400 + (m - 0xdc00)) :: p.1, p.2))
                  else none
                | _, _, _, _ => none)
             | _ => none
           else
             match charOfValid n with
             | some ch => (parseStrBodyF fuel r).map (fun p => (ch :: p.1, p.2))
             | none => none
         | _, _, _, _ => none)
      | _ => none
    else if c.toNat < 32 then none
    else (parseStrBodyF fuel rest).map (fun p => (c :: p.1, p.2))

/-- JSON string body after the opening quote: literal characters up to the
closing quote, with the standard escapes; raw control characters are
rejected (`strict=True`), surrogate escape pairs are combined.  The fuel
of `parseStrBodyF` decreases once per consumed chunk of at least one
character, so `length + 1` units always suffice and the wrapper is total
on its input. -/
def parseStrBody (l : List Char) : Option (List Char × List Char) :=
  parseStrBodyF (l.length + 1) l

/-- JSON integer part: `0`, or a nonzero digit followed by digits. -/
def parseIntPart : List Char → Option (Nat × List Char)
  | [] => none
  | c :: r =>
    if c = '0' then
      match r with
      | c2 :: _ => if isDigitC c2 then none else some (0, r)
      | [] => some (0, [])
    else
      match spanDigits (c :: r) with
      | ([], _) => none
      | (ds, r2) => some (digitsVal ds, r2)

/-- JSON exponent digits with an optional sign. -/
def parseExpDigits : List Char → Option (Int × List Char)
  | [] => none
  | c :: r =>
    if c = '+' then
      match spanDigits r with
      | ([], _) => none
      | (ds, r2) => some ((digitsVal ds : Int), r2)
    else if c = '-' then
      match spanDigits r with
      | ([], _) => none
      | (ds, r2) => some (-(digitsVal ds : Int), r2)
    else
      match spanDigits (c :: r) with
      | ([], _) => none
      | (ds, r2) => some ((digitsVal ds : Int), r2)

/-- The float value of integer part `a`, fraction digits `ds` and exponent
`k`, put in the `m / 10 ^ (e + 1)` normal form of `JValue.float`. -/
def mkFloatDec (a : Nat) (ds : List Char) (k : Int) : JValue :=
  let f : Nat := ds.length
  let M : Nat := a * 10 ^ f + digitsVal ds
  let net : Int := (f : Int) - k
  if 1 ≤ net then .float (M : Int) (net - 1).toNat
  else .float ((M : Int) * 10 ^ (1 - net).toNat) 0

/-- Negate a parsed number (a leading `-` sign). -/
def applySign (neg : Bool) (v : JValue) : JValue :=
  if neg then
    match v with
    | .int n => .int (-n)
    | .float m e => .float (-m) e
    | v => v
  else v

/-- After the fraction digits: an optional exponent. -/
def parseAfterFrac (a : Nat) (ds : List Char) : List Char → Option (JValue × List Char)
  | [] => some (mkFloatDec a ds 0, [])
  | c :: r4 =>
    if c = 'e' ∨ c = 'E' then (parseExpDigits r4).map (fun p => (mkFloatDec a ds p.1, p.2))
    else some (mkFloatDec a ds 0, c :: r4)

/-- JSON number after the optional sign: integer part, optional fraction,
optional exponent; it is an integer iff fraction and exponent are both
absent. -/
def parseNumTail (s : List Char) : Option (JValue × List Char) :=
  match parseIntPart s with
  | none => none
  | some (a, r1) =>
    match r1 with
    | [] => some (.int (a : Int), [])
    | c :: r2 =>
      if c = '.' then
        match spanDigits r2 with
        | ([], _) => none
        | (ds, r3) => parseAfterFrac a ds r3
      else if c = 'e' ∨ c = 'E' then
        (parseExpDigits r2).map (fun p => (mkFloatDec a [] p.1, p.2))
      else some (.int (a : Int), c :: r2)

/-- JSON number. -/
def parseNum : List Char → Option (JValue × List Char)
  | [] => none
  | c :: r =>
    if c = '-' then (parseNumTail r).map (fun p => (applySign true p.1, p.2))
    else parseNumTail (c :: r)

/-- Python dict insertion `d[k] = v`: overwrite in place when the key is
present, append otherwise. -/
def dictInsert (d : List (String × JValue)) (k : String) (v : JValue) :
    List (String × JValue) :=
  if (d.map Prod.fst).contains k then
    d.map (fun kv => if kv.1 == k then (kv.1, v) else kv)
  else d ++ [(k, v)]

/-- Build a dict from parsed key/value pairs in order (later duplicate
keys overwrite, as in `json.loads`). -/
def dictFromPairs (ps : List (String × JValue)) : List (String × JValue) :=
  ps.foldl (fun d kv => dictInsert d kv.1 kv.2) []

mutual
/-- Fueled JSON value parser; every recursive call decreases the fuel, and
one unit of fuel is spent per container nesting level and per container
element, so `length + 1` fuel always suffices (see `jfuel`). -/
def parseVal : Nat → List Char → Option (JValue × List Char)
  | 0, _ => none
  | fuel + 1, s =>
    match skipWs s with
    | [] => none
    | c :: r =>
      if c = 'n' then
        match r with
        | 'u' :: 'l' :: 'l' :: r2 => some (.null, r2)
        | _ => none
      else if c = 't' then
        match r with
        | 'r' :: 'u' :: 'e' :: r2 => some (.bool true, r2)
        | _ => none
      else if c = 'f' then
        match r with
        | 'a' :: 'l' :: 's' :: 'e' :: r2 => some (.bool false, r2)
        | _ => none
      else if c = '"' then
        (parseStrBody r).map (fun p => (.str (String.mk p.1), p.2))
      else if c = '[' then
        match skipWs r with
        | [] => none
        | c2 :: r2 =>
          if c2 = ']' then some (.arr [], r2)
          else (parseArrItems fuel (c2 :: r2)).map (fun p => (.arr p.1, p.2))
      else if c = '\x7b' then
        match skipWs r with
        | [] => none
        | c2 :: r2 =>
          if c2 = '\x7d' then some (.obj [], r2)
          else (parseObjItems fuel (c2 :: r2)).map (fun p => (.obj (dictFromPairs p.1), p.2))
      else parseNum (c :: r)
/-- Comma-separated array elements up to and including the closing
bracket. -/
def parseArrItems : Nat → List Char → Option (List JValue × List Char)
  | 0, _ => none
  | fuel + 1, s =>
    match parseVal fuel s with
    | none => none
    | some (v, r) =>
      match skipWs r with
      | ',' :: r2 => (parseArrItems fuel r2).map (fun p => (v :: p.1, p.2))
      | ']' :: r2 => some ([v], r2)
      | _ => none
/-- Comma-separated object members up to and including the closing brace,
as raw pairs in source order. -/
def parseObjItems : Nat → List Char → Option (List (String × JValue) × List Char)
  | 0, _ => none
  | fuel + 1, s =>
    match skipWs s with
    | '"' :: r =>
      (match parseStrBody r with
       | none => none
       | some (kcs, r2) =>
         match skipWs r2 with
         | ':' :: r3 =>
           (match parseVal fuel r3 with
            | none => none
            | some (v, r4) =>
              match skipWs r4 with
              | ',' :: r5 => (parseObjItems fuel r5).map (fun p => ((String.mk kcs, v) :: p.1, p.2))
              | '\x7d' :: r5 => some ([(String.mk kcs, v)], r5)
              | _ => none)
         | _ => none)
    | _ => none
end

/-- `json.loads`: parse one value and require that only whitespace
remains. -/
def json_loads (s : String) : Option JValue :=
  match parseVal (s.data.length + 1) s.data with
  | some (v, rest) => if (skipWs rest).isEmpty then some v else none
  | none => none

mutual
/-- Sufficient parser fuel for a value: one unit per nesting level plus
one per container element. -/
def jfuel : JValue → Nat
  | .arr xs => 1 + jfuelItems xs
  | .obj fs => 1 + jfuelFields fs
  | _ => 1
def jfuelItems : List JValue → Nat
  | [] => 0
  | v :: vs => 1 + max (jfuel v) (jfuelItems vs)
def jfuelFields : List (String × JValue) → Nat
  | [] => 0
  | kv :: fs => 1 + max (jfuel kv.2) (jfuelFields fs)
end

/-- No duplicate field names at one object level. -/
def keysNodup : List (String × JValue) → Bool
  | [] => true
  | (k, _) :: fs => !(fs.any (fun kv => kv.1 == k)) && keysNodup fs

mutual
/-- No duplicate field names at any object level. -/
def nodupDeep : JValue → Bool
  | .arr xs => nodupDeepList xs
  | .obj fs => keysNodup fs && nodupDeepFields fs
  | _ => true
def nodupDeepList : List JValue → Bool
  | [] => true
  | v :: vs => nodupDeep v && nodupDeepList vs
def nodupDeepFields : List (String × JValue) → Bool
  | [] => true
  | kv :: fs => nodupDeep kv.2 && nodupDeepFields fs
end

/-- A value that an actual Python run can hand to `json.dumps`: no
`datetime` inside (serializable) and no duplicate dict keys (dicts cannot
have any). -/
def jsonSafe (v : JValue) : Bool := dumps_ok v && nodupDeep v

/-! ### The converter, translated from src/backend/json2mdb.py -/

/-- `_is_datetime`: a `datetime` instance, or a string accepted by
`datetime.fromisoformat` after `value.replace("Z", "+00:00")`; anything
else is not a datetime. -/
def is_datetime : JValue → Bool
  | .time _ => true
  | .str s => (pyFromIsoformat (String.mk (replaceZ s.data))).isSome
  | _ => false

/-- `_infer_type`: bool before int (Python `bool` is an `int` subtype),
int before the generic numeric case, then float, then datetime, and
`TEXT(255)` as the fallback. -/
def infer_type (v : JValue) : String :=
  match v with
  | .bool _ => "YESNO"
  | .int _ => "INTEGER"
  | .float _ _ => "DOUBLE"
  | v => if is_datetime v then "DATETIME" else "TEXT(255)"

/-- One field step of `_extract_schema`: skip the reserved `__metadata`
key, skip keys already present, otherwise append the key with its inferred
type. -/
def schemaStep (schema : Schema) (kv : String × JValue) : Schema :=
  if kv.1 == "__metadata" then schema
  else if (schema.map Prod.fst).contains kv.1 then schema
  else schema ++ [(kv.1, infer_type kv.2)]

/-- `_extract_schema` on dict records: fold over records in order, and
within each record over its fields in insertion order. -/
def extract_schema (records : List Record) : Schema :=
  records.foldl (fun schema record => record.foldl schemaStep schema) []

/-- `_extract_schema` on arbitrary values: `record.items()` raises
`AttributeError` on a non-dict record (this can happen for child records,
which are appended unmodified). -/
def extract_schema_v (records : List JValue) : Except PyError Schema :=
  records.foldlM
    (fun schema r =>
      match r with
      | .obj fs => pure (fs.foldl schemaStep schema)
      | _ => throw PyError.attributeError)
    []

/-- Python `dict.get` on a dict-shaped record: the first (only) binding of
the key, if any. -/
def recordGet (r : Record) (k : String) : Option JValue :=
  (r.find? (fun kv => kv.1 == k)).map Prod.snd

/-- `convert_value` inside `_normalize_record`: None passes through, the
native scalar kinds (str, int, float, bool, datetime) pass through
unchanged, anything else is serialized with
`json.dumps(value, ensure_ascii=False)`. -/
def convert_value (v : JValue) : Except PyError JValue :=
  match v with
  | .null => .ok .null
  | .str s => .ok (.str s)
  | .int n => .ok (.int n)
  | .float m e => .ok (.float m e)
  | .bool b => .ok (.bool b)
  | .time t => .ok (.time t)
  | v => (json_dumps v).map JValue.str

/-- `_normalize_record`: one converted value per schema column, in schema
order, reading each column's key from the record with `record.get` (absent
keys give None, i.e. `JValue.null`). -/
def normalize_record (record : Record) : Schema → Except PyError (List JValue)
  | [] => .ok []
  | col :: rest => do
    let v ← convert_value ((recordGet record col.1).getD .null)
    let row ← normalize_record record rest
    pure (v :: row)

/-- `_normalize_record` on an arbitrary value: a non-dict record has no
`.get` and raises `AttributeError`. -/
def normalize_record_v (v : JValue) (schema : Schema) : Except PyError (List JValue) :=
  match v with
  | .obj fs => normalize_record fs schema
  | _ => .error .attributeError

/-- Python truthiness of a JSON value (`if not data`). -/
def pyTruthy : JValue → Bool
  | .null => false
  | .bool b => b
  | .int n => n != 0
  | .float m _ => m != 0
  | .str s => !s.isEmpty
  | .time _ => true
  | .arr xs => !xs.isEmpty
  | .obj fs => !fs.isEmpty

/-- Python `v.get(k, dflt)`: only dicts have `.get`; anything else raises
`AttributeError`. -/
def pyGetDefault (v : JValue) (k : String) (dflt : JValue) : Except PyError JValue :=
  match v with
  | .obj fs => .ok ((recordGet fs k).getD dflt)
  | _ => .error .attributeError

/-- Python `v.items()`: only dicts have `.items`. -/
def pyItems : JValue → Except PyError Record
  | .obj fs => .ok fs
  | _ => .error .attributeError

/-- Python `for x in v`: lists yield their elements, strings their
characters (as one-character strings), dicts their keys; other values are
not iterable and raise `TypeError`. -/
def pyIterate : JValue → Except PyError (List JValue)
  | .arr xs => .ok xs
  | .str s => .ok (s.data.map (fun c => .str (String.mk [c])))
  | .obj fs => .ok (fs.map (fun kv => JValue.str kv.1))
  | _ => .error .typeError

/-- Python `k in v` for a string `k`: key membership on dicts, substring
containment on strings, element equality on lists; other values support no
membership test and raise `TypeError`. -/
def pyContains (v : JValue) (k : String) : Except PyError Bool :=
  match v with
  | .obj fs => .ok (fs.any (fun kv => kv.1 == k))
  | .str s => .ok (subListOf k.data s.data)
  | .arr xs => .ok (xs.any (fun x => jbeq x (.str k)))
  | _ => .error .typeError

/-- Python `v[k]` for a string `k`: dict lookup (KeyError when absent);
strings and lists are indexed by integers only, and other values are not
subscriptable, so both raise `TypeError`. -/
def pyIndex (v : JValue) (k : String) : Except PyError JValue :=
  match v with
  | .obj fs =>
    match recordGet fs k with
    | some x => .ok x
    | none => .error .keyError
  | _ => .error .typeError

/-- One iteration of the record loop of `_load_json`: build the parent
projection (all fields except `Communications`), then, when
`"Communications" in org and "results" in org["Communications"]`, collect
the elements of `org["Communications"]["results"]`. -/
def processOrg (org : JValue) : Except PyError (Record × List JValue) := do
  let fields ← pyItems org
  let orgCopy := fields.filter (fun kv => !(kv.1 == "Communications"))
  if fields.any (fun kv => kv.1 == "Communications") then
    let c ← pyIndex (JValue.obj fields) "Communications"
    let b ← pyContains c "results"
    if b then
      let r ← pyIndex c "results"
      let comms ← pyIterate r
      pure (orgCopy, comms)
    else
      pure (orgCopy, [])
  else
    pure (orgCopy, [])

/-- What reading and parsing the input file can yield: a missing file, a
file that is not well-formed JSON, or a parsed value. -/
inductive JsonSource where
  | missingFile
  | malformed
  | wellFormed (v : JValue)

/-- The state `_load_json` leaves on the converter. -/
structure LoadOut where
  org_records : List Record
  comm_records : List JValue
  org_schema : Schema
  comm_schema : Schema

/-- `_load_json`: parse errors first, then
`full_data.get("d", {}).get("results", [])`, the emptiness check, the
record loop, and finally schema extraction for both record sets. -/
def load_json (src : JsonSource) : Except PyError LoadOut := do
  let fullData ← match src with
    | .missingFile => Except.error PyError.notFoundError
    | .malformed => Except.error PyError.parseError
    | .wellFormed v => Except.ok v
  let d ← pyGetDefault fullData "d" (.obj [])
  let data ← pyGetDefault d "results" (.arr [])
  if pyTruthy data then
    let orgs ← pyIterate data
    let pairs ← orgs.mapM processOrg
    let orgList := pairs.map Prod.fst
    let commList := (pairs.map Prod.snd).flatten
    let orgSchema := extract_schema orgList
    let commSchema ← extract_schema_v commList
    pure ⟨orgList, commList, orgSchema, commSchema⟩
  else
    throw PyError.missingDataError

/-- File-system and store effects of a run, in order. -/
inductive FsOp where
  | removeMdb
  | copyTemplate
  | connectMdb
  | createTables
  | insertRows
deriving DecidableEq

/-- `_create_mdb`: delete an existing destination file first, then copy the
template — or fail when no template path was provided. -/
def create_mdb (mdbExists templateProvided : Bool) : Except PyError Unit × List FsOp :=
  let tr := if mdbExists then [FsOp.removeMdb] else []
  if templateProvided then (.ok (), tr ++ [FsOp.copyTemplate])
  else (.error PyError.templateError, tr)

/-- The row computation of `_insert_data` / `_insert_records`:
organizations first, then communications, each record normalized against
its schema. -/
def insert_rows (out : LoadOut) :
    Except PyError (List (List JValue) × List (List JValue)) := do
  let orgRows ← out.org_records.mapM (fun r => normalize_record r out.org_schema)
  let commRows ← out.comm_records.mapM (fun v => normalize_record_v v out.comm_schema)
  pure (orgRows, commRows)

/-- `convert`: `_load_json`, then `_create_mdb`, then (connection, DDL and
DML against the store collaborator, recorded as effects) the normalized
row computation.  The first failure aborts the run with the effects
performed so far. -/
def convert (src : JsonSource) (mdbExists templateProvided : Bool) :
    Except PyError (LoadOut × List (List JValue) × List (List JValue)) × List FsOp :=
  match load_json src with
  | .error e => (.error e, [])
  | .ok out =>
    match create_mdb mdbExists templateProvided with
    | (.error e, tr) => (.error e, tr)
    | (.ok _, tr) =>
      let tr := tr ++ [FsOp.connectMdb, FsOp.createTables]
      match insert_rows out with
      | .error e => (.error e, tr)
      | .ok rows => (.ok (out, rows), tr ++ [FsOp.insertRows])

/-! ### Spec-side comparison definitions

These follow the wording of the specification and of the claims, for
refinement-style comparison with the translated code. -/

/-- Is the value a JSON boolean? -/
def isBoolJ : JValue → Bool
  | .bool _ => true
  | _ => false

/-- Is the value a JSON integer? -/
def isIntJ : JValue → Bool
  | .int _ => true
  | _ => false

/-- Is the value a JSON floating-point number? -/
def isFloatJ : JValue → Bool
  | .float _ _ => true
  | _ => false

/-- Is the value already a timestamp (`datetime` instance)? -/
def isTimeJ : JValue → Bool
  | .time _ => true
  | _ => false

/-- Is the value an array or a nested object (a composite value)? -/
def isCompositeJ : JValue → Bool
  | .arr _ => true
  | .obj _ => true
  | _ => false

/-- Claim wording: a text value that parses as ISO-8601 date/time, a
trailing `Z` zone marker accepted (normalized to an explicit offset). -/
def claimTextParsesIso : JValue → Bool
  | .str s => (pyFromIsoformat (String.mk (replaceZ s.data))).isSome
  | _ => false

/-- The type-inference precedence list exactly as the claim states it:
boolean, then integer, then floating-point, then
already-a-timestamp-or-ISO-text, then text with maximum length 255. -/
def claimInferredType (v : JValue) : String :=
  if isBoolJ v then "YESNO"
  else if isIntJ v then "INTEGER"
  else if isFloatJ v then "DOUBLE"
  else if isTimeJ v || claimTextParsesIso v then "DATETIME"
  else "TEXT(255)"

/-- The native scalar kinds of the Type Normalizer contract: text,
integer, floating-point, boolean, timestamp. -/
def isNativeScalar : JValue → Bool
  | .str _ => true
  | .int _ => true
  | .float _ _ => true
  | .bool _ => true
  | .time _ => true
  | _ => false

/-- Pure lookup of a key in an object value (spec-side path resolution). -/
def jLookup (v : JValue) (k : String) : Option JValue :=
  match v with
  | .obj fs => recordGet fs k
  | _ => none

/-- Claim wording for C4: does the fixed path `d.results` resolve to a
non-empty array in the parsed document? -/
def claimPathResolvesNonEmpty (v : JValue) : Bool :=
  match (jLookup v "d").bind (fun d => jLookup d "results") with
  | some (.arr (_ :: _)) => true
  | _ => false

/-- First-occurrence deduplication with an explicit seen-set, mirroring
how `_extract_schema` accumulates columns. -/
def dedupAux (seen : List String) : List String → List String
  | [] => []
  | k :: ks =>
    if seen.contains k then dedupAux seen ks
    else k :: dedupAux (seen ++ [k]) ks

/-- Spec wording: the column order inference must produce — the keys of
the record list in first-encounter order, the reserved metadata key
excluded. -/
def orderedKeys (records : List Record) : List String :=
  dedupAux [] ((records.flatten.map Prod.fst).filter (fun k => !(k == "__metadata")))

/-- Type of a column in a schema, by name. -/
def schemaLookup (s : Schema) (k : String) : Option String :=
  (s.find? (fun c => c.1 == k)).map Prod.snd

/-- Character lists that cannot extend a JSON number to the left of them:
empty, or starting with anything but a digit, a dot or an exponent
marker. -/
def numBoundary : List Char → Bool
  | [] => true
  | c :: _ => !(isDigitC c || c == '.' || c == 'e' || c == 'E')

/-! ### Basic reduction lemmas -/

@[simp] theorem ok_bind (a : α) (f : α → Except PyError β) :
    (Except.ok a >>= f) = f a := rfl

@[simp] theorem error_bind (e : PyError) (f : α → Except PyError β) :
    ((Except.error e : Except PyError α) >>= f) = .error e := rfl

@[simp] theorem throw_eq (e : PyError) :
    (throw e : Except PyError α) = .error e := rfl

@[simp] theorem pure_eq_ok (a : α) : (pure a : Except PyError α) = .ok a := rfl

/-! ### Schema-inference lemmas -/

/-- `_extract_schema` is the fold of `schemaStep` over all fields of all
records in order. -/
theorem extract_schema_eq_flat (records : List Record) :
    extract_schema records = records.flatten.foldl schemaStep [] := by
  simp [extract_schema, List.foldl_flatten]

theorem schemaLookup_isSome (s : Schema) (k : String) :
    (schemaLookup s k).isSome = (s.map Prod.fst).contains k := by
  induction s with
  | nil => rfl
  | cons c rest ih =>
    by_cases h : c.1 = k
    · simp [schemaLookup, List.find?_cons, h]
    · have hb : (c.1 == k) = false := by simpa using h
      have hb' : (k == c.1) = false := by simpa using fun e => h e.symm
      simpa [schemaLookup, List.find?_cons, hb, hb'] using ih

theorem schemaLookup_append_single (s : Schema) (k0 : String) (t0 : String) (k : String) :
    schemaLookup (s ++ [(k0, t0)]) k
      = match schemaLookup s k with
        | some t => some t
        | none => if k0 == k then some t0 else none := by
  simp only [schemaLookup, List.find?_append]
  cases hf : s.find? (fun c => c.1 == k) with
  | some c => simp [Option.or]
  | none =>
    by_cases h : k0 = k
    · simp [Option.or, List.find?_cons, h]
    · have hb : (k0 == k) = false := by simpa using h
      simp [Option.or, List.find?_cons, hb]

/-- Keys of the schema fold: the already-present keys followed by the new
non-metadata keys in first-encounter order. -/
theorem foldl_schemaStep_keys (pairs : List (String × JValue)) :
    ∀ s : Schema,
      (pairs.foldl schemaStep s).map Prod.fst
        = s.map Prod.fst
          ++ dedupAux (s.map Prod.fst)
              ((pairs.map Prod.fst).filter (fun k => !(k == "__metadata"))) := by
  induction pairs with
  | nil => intro s; simp [dedupAux]
  | cons kv rest ih =>
    intro s
    obtain ⟨k, v⟩ := kv
    simp only [List.foldl_cons, List.map_cons, List.filter_cons]
    by_cases hm : k = "__metadata"
    · simp [schemaStep, hm, ih s]
    · by_cases hc : k ∈ s.map Prod.fst
      · simp [schemaStep, hm, hc, ih s, dedupAux]
      · rw [show schemaStep s (k, v) = s ++ [(k, infer_type v)] by
          simp [schemaStep, hm, hc]]
        rw [ih (s ++ [(k, infer_type v)])]
        simp [hm, hc, dedupAux, List.append_assoc]

/-- Column types in the schema fold: a key not yet present gets the
inferred type of its first occurrence among the new fields. -/
theorem foldl_schemaStep_lookup (pairs : List (String × JValue)) :
    ∀ (s : Schema) (k : String), (k == "__metadata") = false →
      schemaLookup (pairs.foldl schemaStep s) k
        = match schemaLookup s k with
          | some t => some t
          | none => (pairs.find? (fun kv => kv.1 == k)).map (fun kv => infer_type kv.2) := by
  induction pairs with
  | nil =>
    intro s k _
    cases h : schemaLookup s k <;> simp [h]
  | cons kv rest ih =>
    intro s k hk
    obtain ⟨k', v'⟩ := kv
    simp only [List.foldl_cons]
    have hkm : k ≠ "__metadata" := by simpa using hk
    by_cases hm : k' = "__metadata"
    · have hne : (k' == k) = false := by
        subst hm
        simpa using (Ne.symm hkm)
      rw [show schemaStep s (k', v') = s by simp [schemaStep, hm]]
      rw [ih s k hk]
      cases hs : schemaLookup s k <;> simp [hs, List.find?_cons, hne]
    · by_cases hc : k' ∈ s.map Prod.fst
      · rw [show schemaStep s (k', v') = s by simp [schemaStep, hm, hc]]
        rw [ih s k hk]
        by_cases hkk : k' = k
        · subst hkk
          have hsome : (schemaLookup s k').isSome = true := by
            rw [schemaLookup_isSome]; simpa using hc
          obtain ⟨t, ht⟩ := Option.isSome_iff_exists.mp hsome
          simp [ht]
        · have hne : (k' == k) = false := by simpa using hkk
          cases hs : schemaLookup s k <;> simp [hs, List.find?_cons, hne]
      · rw [show schemaStep s (k', v') = s ++ [(k', infer_type v')] by
          simp [schemaStep, hm, hc]]
        rw [ih (s ++ [(k', infer_type v')]) k hk, schemaLookup_append_single]
        have hnone : schemaLookup s k' = none := by
          have h2 : (schemaLookup s k').isSome = false := by
            rw [schemaLookup_isSome]; simpa using hc
          exact Option.not_isSome_iff_eq_none.mp (by simp [h2])
        by_cases hkk : k' = k
        · subst hkk
          rw [hnone]
          simp [List.find?_cons]
        · have hne : (k' == k) = false := by simpa using hkk
          cases hs : schemaLookup s k <;> simp [hs, hne, List.find?_cons]

/-- Filtering commutes with first-occurrence deduplication, as long as the
two seen-sets agree on the kept elements. -/
theorem filter_dedupAux (p : String → Bool) :
    ∀ (l s1 s2 : List String),
      (∀ k, p k = true → (k ∈ s1 ↔ k ∈ s2)) →
      (dedupAux s1 l).filter p = dedupAux s2 (l.filter p) := by
  intro l
  induction l with
  | nil => intro s1 s2 _; simp [dedupAux]
  | cons k ks ih =>
    intro s1 s2 h
    simp only [List.filter_cons]
    by_cases hp : p k = true
    · by_cases hc : k ∈ s1
      · have hc2 : k ∈ s2 := (h k hp).mp hc
        rw [show dedupAux s1 (k :: ks) = dedupAux s1 ks by simp [dedupAux, hc]]
        simp only [hp, if_true]
        rw [show dedupAux s2 (k :: ks.filter p) = dedupAux s2 (ks.filter p) by
          simp [dedupAux, hc2]]
        exact ih s1 s2 h
      · have hc2 : k ∉ s2 := fun m => hc ((h k hp).mpr m)
        rw [show dedupAux s1 (k :: ks) = k :: dedupAux (s1 ++ [k]) ks by
          simp [dedupAux, hc]]
        simp only [hp, if_true]
        rw [show dedupAux s2 (k :: ks.filter p) = k :: dedupAux (s2 ++ [k]) (ks.filter p) by
          simp [dedupAux, hc2]]
        have hagree : ∀ k', p k' = true → (k' ∈ s1 ++ [k] ↔ k' ∈ s2 ++ [k]) := by
          intro k' hp'
          simp only [List.mem_append, List.mem_singleton]
          exact or_congr (h k' hp') Iff.rfl
        simp [List.filter_cons, hp, ih (s1 ++ [k]) (s2 ++ [k]) hagree]
    · have hpf : p k = false := by simpa using hp
      simp only [hpf, Bool.false_eq_true, if_false]
      by_cases hc : k ∈ s1
      · rw [show dedupAux s1 (k :: ks) = dedupAux s1 ks by simp [dedupAux, hc]]
        exact ih s1 s2 h
      · rw [show dedupAux s1 (k :: ks) = k :: dedupAux (s1 ++ [k]) ks by
          simp [dedupAux, hc]]
        have hagree : ∀ k', p k' = true → (k' ∈ s1 ++ [k] ↔ k' ∈ s2) := by
          intro k' hq
          have hne : k' ≠ k := fun e => by rw [e, hpf] at hq; cases hq
          simp only [List.mem_append, List.mem_singleton]
          rw [or_iff_left hne]
          exact h k' hq
        simp [List.filter_cons, hpf, ih (s1 ++ [k]) s2 hagree]

/-! ### Decimal digit lemmas -/

theorem dChar_digit : ∀ n < 10, isDigitC (dChar n) = true := by decide

theorem dVal_dChar : ∀ n < 10, dVal (dChar n) = n := by decide

theorem dChar_ne_zero : ∀ n < 10, 0 < n → dChar n ≠ '0' := by decide

theorem natDigits_digits : ∀ n : Nat, ∀ c ∈ natDigits n, isDigitC c = true := by
  intro n
  induction n using Nat.strong_induction_on with
  | _ n ih =>
    intro c hc
    rw [natDigits] at hc
    by_cases h : n < 10
    · rw [if_pos h] at hc
      simp only [List.mem_singleton] at hc
      subst hc
      exact dChar_digit n h
    · rw [if_neg h] at hc
      rcases List.mem_append.mp hc with h1 | h2
      · exact ih (n / 10) (Nat.div_lt_self (by omega) (by omega)) c h1
      · simp only [List.mem_singleton] at h2
        subst h2
        exact dChar_digit _ (Nat.mod_lt _ (by omega))

theorem digitsVal_append_single (xs : List Char) (c : Char) :
    digitsVal (xs ++ [c]) = 10 * digitsVal xs + dVal c := by
  simp [digitsVal, List.foldl_append]

theorem digitsVal_natDigits : ∀ n : Nat, digitsVal (natDigits n) = n := by
  intro n
  induction n using Nat.strong_induction_on with
  | _ n ih =>
    rw [natDigits]
    by_cases h : n < 10
    · rw [if_pos h]
      have h1 : digitsVal [dChar n] = dVal (dChar n) := by
        simp [digitsVal]
      rw [h1, dVal_dChar n h]
    · rw [if_neg h, digitsVal_append_single,
        ih (n / 10) (Nat.div_lt_self (by omega) (by omega)),
        dVal_dChar _ (Nat.mod_lt _ (by omega))]
      omega

theorem natDigits_shape : ∀ n : Nat,
    ∃ c cs, natDigits n = c :: cs ∧ isDigitC c = true ∧ (0 < n → c ≠ '0') := by
  intro n
  induction n using Nat.strong_induction_on with
  | _ n ih =>
    rw [natDigits]
    by_cases h : n < 10
    · rw [if_pos h]
      exact ⟨dChar n, [], rfl, dChar_digit n h, fun hp => dChar_ne_zero n h hp⟩
    · rw [if_neg h]
      obtain ⟨c, cs, h1, h2, h3⟩ := ih (n / 10) (Nat.div_lt_self (by omega) (by omega))
      refine ⟨c, cs ++ [dChar (n % 10)], by rw [h1]; rfl, h2, fun _ => ?_⟩
      exact h3 (by omega)

theorem natDigits_length_le : ∀ (k n : Nat), n < 10 ^ k → 0 < k →
    (natDigits n).length ≤ k := by
  intro k
  induction k with
  | zero => omega
  | succ k ihk =>
    intro n hn _
    rw [natDigits]
    by_cases h : n < 10
    · rw [if_pos h]; simp
    · rw [if_neg h]
      have hk : 0 < k := by
        by_contra hk0
        have : k = 0 := by omega
        subst this
        simp [pow_succ] at hn
        omega
      have hdiv : n / 10 < 10 ^ k := by
        rw [Nat.div_lt_iff_lt_mul (by omega : (0:Nat) < 10)]
        calc n < 10 ^ (k + 1) := hn
          _ = 10 ^ k * 10 := by ring
      have := ihk (n / 10) hdiv hk
      simp only [List.length_append, List.length_cons, List.length_nil]
      omega

theorem digitsVal_replicate_zero (z : Nat) (l : List Char) :
    digitsVal (List.replicate z '0' ++ l) = digitsVal l := by
  induction z with
  | zero => simp
  | succ z ih =>
    have : List.replicate (z + 1) '0' ++ l = '0' :: (List.replicate z '0' ++ l) := by
      simp [List.replicate_succ]
    rw [this]
    have h0 : digitsVal ('0' :: (List.replicate z '0' ++ l))
        = (List.replicate z '0' ++ l).foldl (fun a c => 10 * a + dVal c) (10 * 0 + dVal '0') := by
      simp [digitsVal]
    have hd : (10 * 0 + dVal '0') = 0 := by decide
    rw [h0, hd]
    exact ih

theorem spanDigits_exact : ∀ (ds rest : List Char),
    (∀ c ∈ ds, isDigitC c = true) →
    (∀ c cs, rest = c :: cs → isDigitC c = false) →
    spanDigits (ds ++ rest) = (ds, rest) := by
  intro ds
  induction ds with
  | nil =>
    intro rest _ hrest
    cases rest with
    | nil => rfl
    | cons c cs => simp [spanDigits, hrest c cs rfl]
  | cons c ds' ih =>
    intro rest hds hrest
    have hc : isDigitC c = true := hds c (by simp)
    simp only [List.cons_append, spanDigits, hc, if_true, List.append_eq]
    rw [ih rest (fun x hx => hds x (by simp [hx])) hrest]

/-! ### Number printing and parsing lemmas -/

theorem numBoundary_facts (rest : List Char) (hb : numBoundary rest = true) :
    ∀ c cs, rest = c :: cs →
      isDigitC c = false ∧ c ≠ '.' ∧ c ≠ 'e' ∧ c ≠ 'E' := by
  intro c cs he
  subst he
  simp only [numBoundary, Bool.not_eq_true', Bool.or_eq_false_iff] at hb
  obtain ⟨⟨⟨h1, h2⟩, h3⟩, h4⟩ := hb
  exact ⟨h1, by simpa using h2, by simpa using h3, by simpa using h4⟩

theorem parseIntPart_natDigits (n : Nat) (rest : List Char)
    (hrest : ∀ c cs, rest = c :: cs → isDigitC c = false) :
    parseIntPart (natDigits n ++ rest) = some (n, rest) := by
  by_cases h0 : n = 0
  · subst h0
    have h00 : natDigits 0 = ['0'] := by rw [natDigits]; decide
    rw [h00, List.singleton_append]
    cases rest with
    | nil => rfl
    | cons c2 cs2 => simp [parseIntPart, hrest c2 cs2 rfl]
  · obtain ⟨c, cs, hnd, hdig, hz⟩ := natDigits_shape n
    have hc0 : ¬ c = '0' := hz (Nat.pos_of_ne_zero h0)
    rw [hnd, List.cons_append]
    simp only [parseIntPart, if_neg hc0]
    rw [← List.cons_append, ← hnd,
      spanDigits_exact (natDigits n) rest (natDigits_digits n) hrest, hnd]
    show some (digitsVal (c :: cs), rest) = some (n, rest)
    rw [← hnd, digitsVal_natDigits]

theorem parseNumTail_natDigits (n : Nat) (rest : List Char)
    (hb : numBoundary rest = true) :
    parseNumTail (natDigits n ++ rest) = some (.int (n : Int), rest) := by
  have hrest : ∀ c cs, rest = c :: cs → isDigitC c = false :=
    fun c cs he => (numBoundary_facts rest hb c cs he).1
  rw [parseNumTail, parseIntPart_natDigits n rest hrest]
  cases rest with
  | nil => rfl
  | cons c r2 =>
    obtain ⟨_, hd, he, hE⟩ := numBoundary_facts _ hb c r2 rfl
    simp [hd, he, hE]

theorem digit_ne_minus (c : Char) (h : isDigitC c = true) : ¬ c = '-' := by
  intro e
  subst e
  simp [isDigitC] at h

theorem parseNum_natDigits (n : Nat) (rest : List Char)
    (hb : numBoundary rest = true) :
    parseNum (natDigits n ++ rest) = some (.int (n : Int), rest) := by
  obtain ⟨c, cs, hnd, hdig, _⟩ := natDigits_shape n
  rw [hnd, List.cons_append]
  simp only [parseNum, if_neg (digit_ne_minus c hdig)]
  rw [← List.cons_append, ← hnd]
  exact parseNumTail_natDigits n rest hb

theorem parseNum_intChars (m : Int) (rest : List Char)
    (hb : numBoundary rest = true) :
    parseNum (intChars m ++ rest) = some (.int m, rest) := by
  by_cases hm : m < 0
  · have : intChars m = '-' :: natDigits m.natAbs := by simp [intChars, hm]
    rw [this, List.cons_append]
    simp only [parseNum, if_pos rfl]
    rw [parseNumTail_natDigits m.natAbs rest hb]
    have happ : applySign true (JValue.int ((m.natAbs : Nat) : Int)) = JValue.int m := by
      show JValue.int (-((m.natAbs : Nat) : Int)) = JValue.int m
      rw [show -((m.natAbs : Nat) : Int) = m by omega]
    simp only [Option.map_some']
    rw [happ]
    simp
  · have : intChars m = natDigits m.natAbs := by simp [intChars, hm]
    rw [this, parseNum_natDigits m.natAbs rest hb,
      show ((m.natAbs : Nat) : Int) = m by omega]

theorem length_pad_digits (fr e : Nat) (hfr : fr < 10 ^ (e + 1)) :
    (List.replicate (e + 1 - (natDigits fr).length) '0' ++ natDigits fr).length
      = e + 1 := by
  have hle := natDigits_length_le (e + 1) fr hfr (by omega)
  simp only [List.length_append, List.length_replicate]
  omega

theorem pad_digits_all (fr e : Nat) :
    ∀ c ∈ List.replicate (e + 1 - (natDigits fr).length) '0' ++ natDigits fr,
      isDigitC c = true := by
  intro c hc
  rcases List.mem_append.mp hc with h | h
  · have : c = '0' := List.eq_of_mem_replicate h
    subst this
    decide
  · exact natDigits_digits fr c h

theorem mkFloatDec_pad (ip fr e : Nat) (hfr : fr < 10 ^ (e + 1)) :
    mkFloatDec ip (List.replicate (e + 1 - (natDigits fr).length) '0' ++ natDigits fr) 0
      = .float ((ip * 10 ^ (e + 1) + fr : Nat) : Int) e := by
  simp only [mkFloatDec, length_pad_digits fr e hfr, digitsVal_replicate_zero,
    digitsVal_natDigits]
  rw [if_pos (by omega)]
  congr 1
  omega

theorem parseNumTail_floatCore (ip fr e : Nat) (hfr : fr < 10 ^ (e + 1))
    (rest : List Char) (hb : numBoundary rest = true) :
    parseNumTail (natDigits ip
        ++ '.' :: (List.replicate (e + 1 - (natDigits fr).length) '0' ++ natDigits fr)
        ++ rest)
      = some (.float ((ip * 10 ^ (e + 1) + fr : Nat) : Int) e, rest) := by
  have hdot : ∀ c cs, ('.' :: ((List.replicate (e + 1 - (natDigits fr).length) '0'
      ++ natDigits fr) ++ rest)) = c :: cs → isDigitC c = false := by
    intro c cs he
    cases he
    decide
  rw [List.append_assoc, List.cons_append, parseNumTail,
    parseIntPart_natDigits ip _ hdot]
  simp only [if_pos rfl]
  obtain ⟨c0, cs0, hnd, _, _⟩ := natDigits_shape fr
  have hcons : ∃ f0 F', List.replicate (e + 1 - (natDigits fr).length) '0'
      ++ natDigits fr = f0 :: F' := by
    cases hz : List.replicate (e + 1 - (natDigits fr).length) '0' with
    | nil => exact ⟨c0, cs0, by rw [List.nil_append, hnd]⟩
    | cons z zs => exact ⟨z, zs ++ natDigits fr, rfl⟩
  obtain ⟨f0, F', hF⟩ := hcons
  have hspan : spanDigits ((List.replicate (e + 1 - (natDigits fr).length) '0'
      ++ natDigits fr) ++ rest)
      = (List.replicate (e + 1 - (natDigits fr).length) '0' ++ natDigits fr, rest) := by
    exact spanDigits_exact _ rest (pad_digits_all fr e)
      (fun c cs he => (numBoundary_facts rest hb c cs he).1)
  have hspan' : spanDigits (f0 :: (F' ++ rest)) = (f0 :: F', rest) := by
    show spanDigits ((f0 :: F') ++ rest) = (f0 :: F', rest)
    rw [← hF]
    exact hspan
  have hAF : parseAfterFrac ip (f0 :: F') rest
      = some (mkFloatDec ip (f0 :: F') 0, rest) := by
    cases rest with
    | nil => rfl
    | cons c r4 =>
      obtain ⟨_, _, he, hE⟩ := numBoundary_facts _ hb c r4 rfl
      simp [parseAfterFrac, he, hE]
  have hmk : mkFloatDec ip (f0 :: F') 0
      = .float ((ip * 10 ^ (e + 1) + fr : Nat) : Int) e := by
    rw [← hF]
    exact mkFloatDec_pad ip fr e hfr
  rw [hF]
  simp [hspan', hAF, hmk]

theorem parseNum_floatChars (m : Int) (e : Nat) (rest : List Char)
    (hb : numBoundary rest = true) :
    parseNum (floatChars m e ++ rest) = some (.float m e, rest) := by
  have hfr : m.natAbs % 10 ^ (e + 1) < 10 ^ (e + 1) :=
    Nat.mod_lt _ (by positivity)
  have hsum : m.natAbs / 10 ^ (e + 1) * 10 ^ (e + 1) + m.natAbs % 10 ^ (e + 1)
      = m.natAbs := by
    rw [Nat.mul_comm]
    exact Nat.div_add_mod _ _
  by_cases hm : m < 0
  · have hfc : floatChars m e ++ rest
        = '-' :: (natDigits (m.natAbs / 10 ^ (e + 1))
            ++ '.' :: (List.replicate (e + 1 - (natDigits (m.natAbs % 10 ^ (e + 1))).length) '0'
                ++ natDigits (m.natAbs % 10 ^ (e + 1)))
            ++ rest) := by
      simp [floatChars, hm]
    rw [hfc]
    simp only [parseNum, if_pos rfl]
    rw [parseNumTail_floatCore _ _ e hfr rest hb]
    have happ : applySign true
        (JValue.float ((m.natAbs / 10 ^ (e + 1) * 10 ^ (e + 1)
          + m.natAbs % 10 ^ (e + 1) : Nat) : Int) e)
        = JValue.float m e := by
      show JValue.float (-((m.natAbs / 10 ^ (e + 1) * 10 ^ (e + 1)
          + m.natAbs % 10 ^ (e + 1) : Nat) : Int)) e = JValue.float m e
      rw [hsum, show -((m.natAbs : Nat) : Int) = m by omega]
    simp only [Option.map_some']
    rw [happ]
    simp
  · obtain ⟨c, cs, hnd, hdig, _⟩ := natDigits_shape (m.natAbs / 10 ^ (e + 1))
    have hfc : floatChars m e ++ rest
        = natDigits (m.natAbs / 10 ^ (e + 1))
            ++ '.' :: (List.replicate (e + 1 - (natDigits (m.natAbs % 10 ^ (e + 1))).length) '0'
                ++ natDigits (m.natAbs % 10 ^ (e + 1)))
            ++ rest := by
      simp [floatChars, hm]
    rw [hfc, List.append_assoc, hnd, List.cons_append]
    simp only [parseNum, if_neg (digit_ne_minus c hdig)]
    rw [← List.cons_append, ← hnd, ← List.append_assoc,
      parseNumTail_floatCore _ _ e hfr rest hb,
      show ((m.natAbs / 10 ^ (e + 1) * 10 ^ (e + 1)
        + m.natAbs % 10 ^ (e + 1) : Nat) : Int) = m by rw [hsum]; omega]

/-! ### String escaping round-trip lemmas -/

theorem charOfValid_toNat (c : Char) : charOfValid c.toNat = some c := by
  have hv : c.toNat < 0xd800 ∨ (0xe000 ≤ c.toNat ∧ c.toNat < 0x110000) := c.valid
  simp [charOfValid, hv, Char.ofNat_toNat]

theorem hexDVal_hChar : ∀ m < 16, hexDVal (hChar m) = some m := by decide

theorem psb_close (fuel : Nat) (l : List Char) :
    parseStrBodyF (fuel + 1) ('"' :: l) = some ([], l) := rfl

theorem psb_quote (fuel : Nat) (l : List Char) :
    parseStrBodyF (fuel + 1) ('\\' :: '"' :: l)
      = (parseStrBodyF fuel l).map (fun p => ('"' :: p.1, p.2)) := rfl

theorem psb_backslash (fuel : Nat) (l : List Char) :
    parseStrBodyF (fuel + 1) ('\\' :: '\\' :: l)
      = (parseStrBodyF fuel l).map (fun p => ('\\' :: p.1, p.2)) := rfl

theorem psb_b (fuel : Nat) (l : List Char) :
    parseStrBodyF (fuel + 1) ('\\' :: 'b' :: l)
      = (parseStrBodyF fuel l).map (fun p => ('\x08' :: p.1, p.2)) := rfl

theorem psb_t (fuel : Nat) (l : List Char) :
    parseStrBodyF (fuel + 1) ('\\' :: 't' :: l)
      = (parseStrBodyF fuel l).map (fun p => ('\t' :: p.1, p.2)) := rfl

theorem psb_n (fuel : Nat) (l : List Char) :
    parseStrBodyF (fuel + 1) ('\\' :: 'n' :: l)
      = (parseStrBodyF fuel l).map (fun p => ('\n' :: p.1, p.2)) := rfl

theorem psb_f (fuel : Nat) (l : List Char) :
    parseStrBodyF (fuel + 1) ('\\' :: 'f' :: l)
      = (parseStrBodyF fuel l).map (fun p => ('\x0c' :: p.1, p.2)) := rfl

theorem psb_r (fuel : Nat) (l : List Char) :
    parseStrBodyF (fuel + 1) ('\\' :: 'r' :: l)
      = (parseStrBodyF fuel l).map (fun p => ('\r' :: p.1, p.2)) := rfl

set_option maxHeartbeats 2000000 in
theorem psb_plain (fuel : Nat) (c : Char) (l : List Char) (hq : ¬ c = '"')
    (hb : ¬ c = '\\') (h32 : ¬ c.toNat < 32) :
    parseStrBodyF (fuel + 1) (c :: l)
      = (parseStrBodyF fuel l).map (fun p => (c :: p.1, p.2)) := by
  rw [parseStrBodyF.eq_def]
  simp only [if_neg hq, if_neg hb, if_neg h32]

theorem psb_control (fuel : Nat) (c : Char) (l : List Char) (h : c.toNat < 32) :
    parseStrBodyF (fuel + 1) ('\\' :: 'u' :: (toHex4 c.toNat ++ l))
      = (parseStrBodyF fuel l).map (fun p => (c :: p.1, p.2)) := by
  show parseStrBodyF (fuel + 1) ('\\' :: 'u' :: hChar (c.toNat / 4096 % 16)
      :: hChar (c.toNat / 256 % 16) :: hChar (c.toNat / 16 % 16)
      :: hChar (c.toNat % 16) :: l) = _
  rw [parseStrBodyF.eq_def]
  simp only [
    hexDVal_hChar (c.toNat / 4096 % 16) (Nat.mod_lt _ (by omega)),
    hexDVal_hChar (c.toNat / 256 % 16) (Nat.mod_lt _ (by omega)),
    hexDVal_hChar (c.toNat / 16 % 16) (Nat.mod_lt _ (by omega)),
    hexDVal_hChar (c.toNat % 16) (Nat.mod_lt _ (by omega))]
  have hn : ((c.toNat / 4096 % 16 * 16 + c.toNat / 256 % 16) * 16 + c.toNat / 16 % 16) * 16
      + c.toNat % 16 = c.toNat := by omega
  have hs : ¬(55296 ≤ c.toNat ∧ c.toNat ≤ 56319) := by omega
  simp [hn, hs, charOfValid_toNat]

theorem parseStrBodyF_escape : ∀ (cs : List Char) (fuel : Nat) (rest : List Char),
    cs.length + 1 ≤ fuel →
    parseStrBodyF fuel (escapeL cs ++ '"' :: rest) = some (cs, rest) := by
  intro cs
  induction cs with
  | nil =>
    intro fuel rest hf
    obtain ⟨g, rfl⟩ : ∃ g, fuel = g + 1 := ⟨fuel - 1, by omega⟩
    exact psb_close g rest
  | cons c cs' ih =>
    intro fuel rest hf
    obtain ⟨g, rfl⟩ : ∃ g, fuel = g + 1 := ⟨fuel - 1, by omega⟩
    have hg : cs'.length + 1 ≤ g := by
      simp only [List.length_cons] at hf
      omega
    show parseStrBodyF (g + 1) ((escChar c ++ escapeL cs') ++ '"' :: rest) = _
    rw [List.append_assoc]
    by_cases h1 : c = '"'
    · subst h1
      rw [show escChar '"' = ['\\', '"'] from rfl, List.cons_append, List.cons_append,
        List.nil_append, psb_quote, ih g rest hg]
      rfl
    · by_cases h2 : c = '\\'
      · subst h2
        rw [show escChar '\\' = ['\\', '\\'] from rfl, List.cons_append, List.cons_append,
          List.nil_append, psb_backslash, ih g rest hg]
        rfl
      · by_cases h3 : c = '\x08'
        · subst h3
          rw [show escChar '\x08' = ['\\', 'b'] from rfl, List.cons_append, List.cons_append,
            List.nil_append, psb_b, ih g rest hg]
          rfl
        · by_cases h4 : c = '\t'
          · subst h4
            rw [show escChar '\t' = ['\\', 't'] from rfl, List.cons_append, List.cons_append,
              List.nil_append, psb_t, ih g rest hg]
            rfl
          · by_cases h5 : c = '\n'
            · subst h5
              rw [show escChar '\n' = ['\\', 'n'] from rfl, List.cons_append, List.cons_append,
                List.nil_append, psb_n, ih g rest hg]
              rfl
            · by_cases h6 : c = '\x0c'
              · subst h6
                rw [show escChar '\x0c' = ['\\', 'f'] from rfl, List.cons_append,
                  List.cons_append, List.nil_append, psb_f, ih g rest hg]
                rfl
              · by_cases h7 : c = '\r'
                · subst h7
                  rw [show escChar '\r' = ['\\', 'r'] from rfl, List.cons_append,
                    List.cons_append, List.nil_append, psb_r, ih g rest hg]
                  rfl
                · by_cases h8 : c.toNat < 32
                  · rw [show escChar c = '\\' :: 'u' :: toHex4 c.toNat by
                      simp [escChar, h1, h2, h3, h4, h5, h6, h7, h8],
                      List.cons_append, List.cons_append,
                      psb_control g c _ h8, ih g rest hg]
                    rfl
                  · rw [show escChar c = [c] by
                      simp [escChar, h1, h2, h3, h4, h5, h6, h7, h8],
                      List.singleton_append, psb_plain g c _ h1 h2 h8, ih g rest hg]
                    rfl

theorem escapeL_length (cs : List Char) : cs.length ≤ (escapeL cs).length := by
  induction cs with
  | nil => simp [escapeL]
  | cons c cs' ih =>
    have h1 : 1 ≤ (escChar c).length := by
      simp only [escChar]
      split <;> try simp
      split <;> try simp
      split <;> try simp
      split <;> try simp
      split <;> try simp
      split <;> try simp
      split <;> try simp
      split <;> simp [toHex4]
    simp only [escapeL, List.length_cons, List.length_append]
    omega

theorem parseStrBody_escape (cs rest : List Char) :
    parseStrBody (escapeL cs ++ '"' :: rest) = some (cs, rest) := by
  apply parseStrBodyF_escape
  have := escapeL_length cs
  simp only [List.length_append, List.length_cons]
  omega

/-! ### Parser dispatch lemmas -/

theorem skipWs_cons (c : Char) (l : List Char) (h : isWsC c = false) :
    skipWs (c :: l) = c :: l := by simp [skipWs, h]

theorem pv_null (fuel : Nat) (l : List Char) :
    parseVal (fuel + 1) ('n' :: 'u' :: 'l' :: 'l' :: l) = some (.null, l) := rfl

theorem pv_true (fuel : Nat) (l : List Char) :
    parseVal (fuel + 1) ('t' :: 'r' :: 'u' :: 'e' :: l) = some (.bool true, l) := rfl

theorem pv_false (fuel : Nat) (l : List Char) :
    parseVal (fuel + 1) ('f' :: 'a' :: 'l' :: 's' :: 'e' :: l) = some (.bool false, l) := rfl

theorem pv_str (fuel : Nat) (l : List Char) :
    parseVal (fuel + 1) ('"' :: l)
      = (parseStrBody l).map (fun p => (.str (String.mk p.1), p.2)) := rfl

theorem pv_arr (fuel : Nat) (l : List Char) :
    parseVal (fuel + 1) ('[' :: l)
      = (match skipWs l with
         | [] => none
         | c2 :: r2 =>
           if c2 = ']' then some (.arr [], r2)
           else (parseArrItems fuel (c2 :: r2)).map (fun p => (.arr p.1, p.2))) := rfl

theorem pv_obj (fuel : Nat) (l : List Char) :
    parseVal (fuel + 1) ('\x7b' :: l)
      = (match skipWs l with
         | [] => none
         | c2 :: r2 =>
           if c2 = '\x7d' then some (.obj [], r2)
           else (parseObjItems fuel (c2 :: r2)).map
             (fun p => (.obj (dictFromPairs p.1), p.2))) := rfl

theorem pv_num (fuel : Nat) (c : Char) (r : List Char)
    (h : isDigitC c = true ∨ c = '-') :
    parseVal (fuel + 1) (c :: r) = parseNum (c :: r) := by
  have hbnd : 45 ≤ c.toNat ∧ c.toNat ≤ 57 := by
    rcases h with h | h
    · simp only [isDigitC, Bool.and_eq_true, decide_eq_true_eq] at h
      omega
    · subst h; decide
  have hne : ∀ d : Char, ¬ (45 ≤ d.toNat ∧ d.toNat ≤ 57) → ¬ c = d :=
    fun d hd e => hd (e ▸ hbnd)
  have hws : isWsC c = false := by
    simp [isWsC, beq_eq_false_iff_ne.mpr (hne ' ' (by decide)),
      beq_eq_false_iff_ne.mpr (hne '\t' (by decide)),
      beq_eq_false_iff_ne.mpr (hne '\n' (by decide)),
      beq_eq_false_iff_ne.mpr (hne '\r' (by decide))]
  simp only [parseVal]
  rw [skipWs_cons c r hws]
  simp only [if_neg (hne 'n' (by decide)), if_neg (hne 't' (by decide)),
    if_neg (hne 'f' (by decide)), if_neg (hne '"' (by decide)),
    if_neg (hne '[' (by decide)), if_neg (hne '\x7b' (by decide))]

theorem parseVal_skipWs (fuel : Nat) (a b : List Char) (h : skipWs a = skipWs b) :
    parseVal (fuel + 1) a = parseVal (fuel + 1) b := by
  simp only [parseVal]
  rw [h]

theorem parseVal_cons_space (fuel : Nat) (l : List Char) :
    parseVal fuel (' ' :: l) = parseVal fuel l := by
  cases fuel with
  | zero => rfl
  | succ f => exact parseVal_skipWs f _ _ (by simp [skipWs, isWsC])

theorem parseArrItems_cons_space (fuel : Nat) (l : List Char) :
    parseArrItems fuel (' ' :: l) = parseArrItems fuel l := by
  cases fuel with
  | zero => rfl
  | succ f => simp only [parseArrItems, parseVal_cons_space]

theorem parseObjItems_cons_space (fuel : Nat) (l : List Char) :
    parseObjItems fuel (' ' :: l) = parseObjItems fuel l := by
  cases fuel with
  | zero => rfl
  | succ f =>
    simp only [parseObjItems]
    rw [show skipWs (' ' :: l) = skipWs l by simp [skipWs, isWsC]]

/-! ### Head shapes of serialized values -/

theorem digit_aux (c : Char) (h : isDigitC c = true) :
    isWsC c = false ∧ ¬ c = ']' ∧ ¬ c = '\x7d' := by
  have hbnd : 48 ≤ c.toNat ∧ c.toNat ≤ 57 := by
    simp only [isDigitC, Bool.and_eq_true, decide_eq_true_eq] at h
    omega
  have hne : ∀ d : Char, ¬ (48 ≤ d.toNat ∧ d.toNat ≤ 57) → ¬ c = d :=
    fun d hd e => hd (e ▸ hbnd)
  refine ⟨?_, hne ']' (by decide), hne '\x7d' (by decide)⟩
  simp [isWsC, beq_eq_false_iff_ne.mpr (hne ' ' (by decide)),
    beq_eq_false_iff_ne.mpr (hne '\t' (by decide)),
    beq_eq_false_iff_ne.mpr (hne '\n' (by decide)),
    beq_eq_false_iff_ne.mpr (hne '\r' (by decide))]

theorem intChars_head (m : Int) :
    ∃ c t, intChars m = c :: t ∧ (isDigitC c = true ∨ c = '-') := by
  by_cases hm : m < 0
  · exact ⟨'-', natDigits m.natAbs, by simp [intChars, hm], Or.inr rfl⟩
  · obtain ⟨c, cs, hnd, hdig, _⟩ := natDigits_shape m.natAbs
    exact ⟨c, cs, by simp [intChars, hm, hnd], Or.inl hdig⟩

theorem floatChars_head (m : Int) (e : Nat) :
    ∃ c t, floatChars m e = c :: t ∧ (isDigitC c = true ∨ c = '-') := by
  by_cases hm : m < 0
  · refine ⟨'-', natDigits (m.natAbs / 10 ^ (e + 1))
      ++ '.' :: (List.replicate (e + 1 - (natDigits (m.natAbs % 10 ^ (e + 1))).length) '0'
          ++ natDigits (m.natAbs % 10 ^ (e + 1))), ?_, Or.inr rfl⟩
    simp [floatChars, hm]
  · obtain ⟨c, cs, hnd, hdig, _⟩ := natDigits_shape (m.natAbs / 10 ^ (e + 1))
    refine ⟨c, cs
      ++ '.' :: (List.replicate (e + 1 - (natDigits (m.natAbs % 10 ^ (e + 1))).length) '0'
          ++ natDigits (m.natAbs % 10 ^ (e + 1))), ?_, Or.inl hdig⟩
    simp [floatChars, hm, hnd]

/-- Every serializable value prints as a non-empty text whose head is not
whitespace and not a closing bracket. -/
theorem dumps_head (v : JValue) (hok : dumps_ok v = true) :
    ∃ c t, dumpsChars v = c :: t ∧ isWsC c = false ∧ ¬ c = ']' ∧ ¬ c = '\x7d' := by
  cases v with
  | int m =>
    obtain ⟨c, t, hl, hd⟩ := intChars_head m
    refine ⟨c, t, hl, ?_⟩
    rcases hd with hd | hd
    · exact digit_aux c hd
    · subst hd
      exact by decide
  | float m e =>
    obtain ⟨c, t, hl, hd⟩ := floatChars_head m e
    refine ⟨c, t, hl, ?_⟩
    rcases hd with hd | hd
    · exact digit_aux c hd
    · subst hd
      exact by decide
  | time t => simp [dumps_ok] at hok
  | bool b => cases b <;> exact ⟨_, _, rfl, by decide⟩
  | null => exact ⟨'n', _, rfl, by decide⟩
  | str s => exact ⟨'"', _, rfl, by decide⟩
  | arr xs => exact ⟨'[', _, rfl, by decide⟩
  | obj fs => exact ⟨'\x7b', _, rfl, by decide⟩

/-! ### Fuel lemmas -/

theorem jfuel_pos (v : JValue) : 1 ≤ jfuel v := by
  cases v <;> simp [jfuel]

theorem jfuelItems_pos (vs : List JValue) (h : vs ≠ []) : 1 ≤ jfuelItems vs := by
  cases vs with
  | nil => exact absurd rfl h
  | cons v vs' => simp [jfuelItems]

theorem jfuelFields_pos (fs : List (String × JValue)) (h : fs ≠ []) :
    1 ≤ jfuelFields fs := by
  cases fs with
  | nil => exact absurd rfl h
  | cons kv fs' => simp [jfuelFields]

/-! ### Dict building for duplicate-free pair lists -/

theorem dictInsert_foldl (fs : List (String × JValue)) :
    ∀ acc : List (String × JValue), keysNodup fs = true →
      (∀ kv ∈ fs, kv.1 ∉ acc.map Prod.fst) →
      fs.foldl (fun d kv => dictInsert d kv.1 kv.2) acc = acc ++ fs := by
  induction fs with
  | nil => intro acc _ _; simp
  | cons kv rest ih =>
    intro acc hnd hdisj
    obtain ⟨k, v⟩ := kv
    have hmem : k ∉ acc.map Prod.fst := hdisj (k, v) (by simp)
    have hins : dictInsert acc k v = acc ++ [(k, v)] := by
      simp [dictInsert, hmem]
    simp only [List.foldl_cons, hins]
    have hnd' : keysNodup rest = true := by
      simp only [keysNodup, Bool.and_eq_true] at hnd
      exact hnd.2
    have hhead : rest.any (fun kv2 => kv2.1 == k) = false := by
      simp only [keysNodup, Bool.and_eq_true, Bool.not_eq_true'] at hnd
      exact hnd.1
    rw [ih (acc ++ [(k, v)]) hnd']
    · simp
    · intro kv2 hkv2
      simp only [List.map_append, List.mem_append, List.map_cons, List.map_nil,
        List.mem_singleton, not_or]
      refine ⟨fun hmem2 => hdisj kv2 (by simp [hkv2]) hmem2, ?_⟩
      intro he
      have : rest.any (fun x => x.1 == k) = true :=
        List.any_eq_true.mpr ⟨kv2, hkv2, by simp [he]⟩
      rw [this] at hhead
      cases hhead

theorem dictFromPairs_nodup (fs : List (String × JValue)) (h : keysNodup fs = true) :
    dictFromPairs fs = fs := by
  have := dictInsert_foldl fs [] h (by simp)
  simpa [dictFromPairs] using this

theorem pv_arr_close (fuel : Nat) (l r2 : List Char) (h : skipWs l = ']' :: r2) :
    parseVal (fuel + 1) ('[' :: l) = some (.arr [], r2) := by
  rw [pv_arr, h]
  rfl

theorem pv_arr_items (fuel : Nat) (l : List Char) (c2 : Char) (r2 : List Char)
    (h : skipWs l = c2 :: r2) (hne : ¬ c2 = ']') :
    parseVal (fuel + 1) ('[' :: l)
      = (parseArrItems fuel (c2 :: r2)).map (fun p => (.arr p.1, p.2)) := by
  rw [pv_arr, h]
  show (if c2 = ']' then some (JValue.arr [], r2)
      else (parseArrItems fuel (c2 :: r2)).map
        (fun p => (JValue.arr p.1, p.2))) = _
  rw [if_neg hne]

theorem pv_obj_close (fuel : Nat) (l r2 : List Char) (h : skipWs l = '\x7d' :: r2) :
    parseVal (fuel + 1) ('\x7b' :: l) = some (.obj [], r2) := by
  rw [pv_obj, h]
  rfl

theorem pv_obj_items (fuel : Nat) (l : List Char) (c2 : Char) (r2 : List Char)
    (h : skipWs l = c2 :: r2) (hne : ¬ c2 = '\x7d') :
    parseVal (fuel + 1) ('\x7b' :: l)
      = (parseObjItems fuel (c2 :: r2)).map
          (fun p => (.obj (dictFromPairs p.1), p.2)) := by
  rw [pv_obj, h]
  show (if c2 = '\x7d' then some (JValue.obj [], r2)
      else (parseObjItems fuel (c2 :: r2)).map
        (fun p => (JValue.obj (dictFromPairs p.1), p.2))) = _
  rw [if_neg hne]

theorem poi_key (fuel : Nat) (l : List Char) :
    parseObjItems (fuel + 1) ('"' :: l)
      = (match parseStrBody l with
         | none => none
         | some (kcs, r2) =>
           match skipWs r2 with
           | ':' :: r3 =>
             (match parseVal fuel r3 with
              | none => none
              | some (v, r4) =>
                match skipWs r4 with
                | ',' :: r5 =>
                  (parseObjItems fuel r5).map
                    (fun p => ((String.mk kcs, v) :: p.1, p.2))
                | '\x7d' :: r5 => some ([(String.mk kcs, v)], r5)
                | _ => none)
           | _ => none) := rfl

theorem pai_step (fuel : Nat) (s : List Char) :
    parseArrItems (fuel + 1) s
      = (match parseVal fuel s with
         | none => none
         | some (v, r) =>
           match skipWs r with
           | ',' :: r2 => (parseArrItems fuel r2).map (fun p => (v :: p.1, p.2))
           | ']' :: r2 => some ([v], r2)
           | _ => none) := rfl

theorem dumpsItems_cons_struct (v1 : JValue) (vs1 : List JValue) :
    (vs1 = [] ∧ dumpsItems (v1 :: vs1) = dumpsChars v1)
    ∨ (vs1 ≠ [] ∧ dumpsItems (v1 :: vs1)
        = dumpsChars v1 ++ ',' :: ' ' :: dumpsItems vs1) := by
  cases vs1 with
  | nil => exact Or.inl ⟨rfl, rfl⟩
  | cons v2 vs2 => exact Or.inr ⟨by simp, rfl⟩

theorem dumpsFields_cons_struct (k : String) (v : JValue) (fl : List (String × JValue)) :
    (fl = [] ∧ dumpsFields ((k, v) :: fl)
        = '"' :: escapeL k.data ++ '"' :: ':' :: ' ' :: dumpsChars v)
    ∨ (fl ≠ [] ∧ dumpsFields ((k, v) :: fl)
        = '"' :: escapeL k.data ++ '"' :: ':' :: ' ' :: dumpsChars v
            ++ ',' :: ' ' :: dumpsFields fl) := by
  cases fl with
  | nil => exact Or.inl ⟨rfl, rfl⟩
  | cons kv2 fl2 => exact Or.inr ⟨by simp, rfl⟩

theorem dumpsFields_head (k : String) (v : JValue) (fl : List (String × JValue)) :
    ∃ tt, dumpsFields ((k, v) :: fl) = '"' :: tt := by
  rcases dumpsFields_cons_struct k v fl with ⟨_, hs⟩ | ⟨_, hs⟩
  · exact ⟨escapeL k.data ++ '"' :: ':' :: ' ' :: dumpsChars v, hs⟩
  · exact ⟨escapeL k.data ++ '"' :: ':' :: ' ' :: dumpsChars v
      ++ ',' :: ' ' :: dumpsFields fl, hs⟩

/-- The fueled parser reads back every serialized value, consuming exactly
the serialized text, provided the fuel covers the value's nesting need and
the following text cannot extend a number. -/
theorem parse_round : ∀ fuel : Nat,
    (∀ (v : JValue) (rest : List Char), dumps_ok v = true → nodupDeep v = true →
      jfuel v ≤ fuel → numBoundary rest = true →
      parseVal fuel (dumpsChars v ++ rest) = some (v, rest))
    ∧ (∀ (vs : List JValue) (rest : List Char), vs ≠ [] →
      dumpsOkList vs = true → nodupDeepList vs = true → jfuelItems vs ≤ fuel →
      parseArrItems fuel (dumpsItems vs ++ ']' :: rest) = some (vs, rest))
    ∧ (∀ (fl : List (String × JValue)) (rest : List Char), fl ≠ [] →
      dumpsOkFields fl = true → nodupDeepFields fl = true → jfuelFields fl ≤ fuel →
      parseObjItems fuel (dumpsFields fl ++ '\x7d' :: rest) = some (fl, rest)) := by
  intro fuel
  induction fuel using Nat.strong_induction_on with
  | _ fuel IH =>
    refine ⟨?_, ?_, ?_⟩
    · intro v rest hok hnd hf hb
      obtain ⟨f, rfl⟩ : ∃ f, fuel = f + 1 := ⟨fuel - 1, by have := jfuel_pos v; omega⟩
      cases v with
      | null =>
        rw [show dumpsChars JValue.null ++ rest = 'n' :: 'u' :: 'l' :: 'l' :: rest from rfl]
        exact pv_null f rest
      | bool b =>
        cases b with
        | true =>
          rw [show dumpsChars (JValue.bool true) ++ rest
              = 't' :: 'r' :: 'u' :: 'e' :: rest from rfl]
          exact pv_true f rest
        | false =>
          rw [show dumpsChars (JValue.bool false) ++ rest
              = 'f' :: 'a' :: 'l' :: 's' :: 'e' :: rest from rfl]
          exact pv_false f rest
      | int m =>
        obtain ⟨c, t, hl, hd⟩ := intChars_head m
        rw [show dumpsChars (JValue.int m) = intChars m from rfl, hl, List.cons_append,
          pv_num f c (t ++ rest) hd, ← List.cons_append, ← hl]
        exact parseNum_intChars m rest hb
      | float m e =>
        obtain ⟨c, t, hl, hd⟩ := floatChars_head m e
        rw [show dumpsChars (JValue.float m e) = floatChars m e from rfl, hl,
          List.cons_append, pv_num f c (t ++ rest) hd, ← List.cons_append, ← hl]
        exact parseNum_floatChars m e rest hb
      | str s =>
        rw [show dumpsChars (JValue.str s) ++ rest
            = '"' :: (escapeL s.data ++ '"' :: rest) by
          show ('"' :: (escapeL s.data ++ ['"'])) ++ rest = _
          simp]
        rw [pv_str f, parseStrBody_escape s.data rest]
        rfl
      | time t => simp [dumps_ok] at hok
      | arr xs =>
        rw [show dumpsChars (JValue.arr xs) ++ rest
            = '[' :: (dumpsItems xs ++ ']' :: rest) by
          show ('[' :: (dumpsItems xs ++ [']'])) ++ rest = _
          simp]
        cases xs with
        | nil =>
          exact pv_arr_close f _ rest
            (by rw [show dumpsItems ([] : List JValue) ++ ']' :: rest
                = ']' :: rest from rfl, skipWs_cons ']' rest (by decide)])
        | cons v1 vs1 =>
          have hokl : dumpsOkList (v1 :: vs1) = true := hok
          have hndl : nodupDeepList (v1 :: vs1) = true := hnd
          have hfl : jfuelItems (v1 :: vs1) ≤ f := by
            have heq : jfuel (JValue.arr (v1 :: vs1)) = 1 + jfuelItems (v1 :: vs1) := rfl
            rw [heq] at hf
            omega
          have hok1 : dumps_ok v1 = true := by
            simp only [dumpsOkList, Bool.and_eq_true] at hokl
            exact hokl.1
          obtain ⟨c1, t1, hd1, hw1, hne1, _⟩ := dumps_head v1 hok1
          have htt : ∃ tt, dumpsItems (v1 :: vs1) ++ ']' :: rest = c1 :: tt := by
            rcases dumpsItems_cons_struct v1 vs1 with ⟨_, hs⟩ | ⟨_, hs⟩
            · rw [hs, hd1]
              exact ⟨t1 ++ ']' :: rest, by simp⟩
            · rw [hs, hd1]
              exact ⟨t1 ++ (',' :: ' ' :: dumpsItems vs1 ++ ']' :: rest), by simp⟩
          obtain ⟨ttail, httail⟩ := htt
          rw [pv_arr_items f _ c1 ttail
            (by rw [httail]; exact skipWs_cons c1 ttail hw1) hne1, ← httail]
          rw [(IH f (by omega)).2.1 (v1 :: vs1) rest (by simp) hokl hndl hfl]
          rfl
      | obj fs =>
        rw [show dumpsChars (JValue.obj fs) ++ rest
            = '\x7b' :: (dumpsFields fs ++ '\x7d' :: rest) by
          show ('\x7b' :: (dumpsFields fs ++ ['\x7d'])) ++ rest = _
          simp]
        cases fs with
        | nil =>
          exact pv_obj_close f _ rest
            (by rw [show dumpsFields ([] : List (String × JValue)) ++ '\x7d' :: rest
                = '\x7d' :: rest from rfl, skipWs_cons '\x7d' rest (by decide)])
        | cons kv fs' =>
          obtain ⟨k, v⟩ := kv
          have hokl : dumpsOkFields ((k, v) :: fs') = true := hok
          have hndk : keysNodup ((k, v) :: fs') = true
              ∧ nodupDeepFields ((k, v) :: fs') = true := by
            have h2 : (keysNodup ((k, v) :: fs')
                && nodupDeepFields ((k, v) :: fs')) = true := hnd
            simpa [Bool.and_eq_true] using h2
          have hfl : jfuelFields ((k, v) :: fs') ≤ f := by
            have heq : jfuel (JValue.obj ((k, v) :: fs'))
                = 1 + jfuelFields ((k, v) :: fs') := rfl
            rw [heq] at hf
            omega
          obtain ⟨tt0, htt0⟩ := dumpsFields_head k v fs'
          have htt : dumpsFields ((k, v) :: fs') ++ '\x7d' :: rest
              = '"' :: (tt0 ++ '\x7d' :: rest) := by
            rw [htt0]
            rfl
          rw [pv_obj_items f _ '"' (tt0 ++ '\x7d' :: rest)
            (by rw [htt]; exact skipWs_cons '"' _ (by decide)) (by decide), ← htt]
          rw [(IH f (by omega)).2.2 ((k, v) :: fs') rest (by simp) hokl hndk.2 hfl]
          simp only [Option.map_some']
          rw [dictFromPairs_nodup _ hndk.1]
    · intro vs rest hne hok hnd hf
      obtain ⟨f, rfl⟩ : ∃ f, fuel = f + 1 :=
        ⟨fuel - 1, by have := jfuelItems_pos vs hne; omega⟩
      cases vs with
      | nil => exact absurd rfl hne
      | cons v1 vs1 =>
        have hok1 : dumps_ok v1 = true ∧ dumpsOkList vs1 = true := by
          have h2 : (dumps_ok v1 && dumpsOkList vs1) = true := hok
          simpa [Bool.and_eq_true] using h2
        have hnd1 : nodupDeep v1 = true ∧ nodupDeepList vs1 = true := by
          have h2 : (nodupDeep v1 && nodupDeepList vs1) = true := hnd
          simpa [Bool.and_eq_true] using h2
        have hf1 : jfuel v1 ≤ f ∧ jfuelItems vs1 ≤ f := by
          have heq : jfuelItems (v1 :: vs1) = 1 + max (jfuel v1) (jfuelItems vs1) := rfl
          rw [heq] at hf
          have hm : max (jfuel v1) (jfuelItems vs1) ≤ f := by omega
          exact ⟨le_trans (Nat.le_max_left _ _) hm, le_trans (Nat.le_max_right _ _) hm⟩
        have hskC : ∀ l : List Char, skipWs (',' :: l) = ',' :: l :=
          fun l => skipWs_cons ',' l (by decide)
        have hskB : ∀ l : List Char, skipWs (']' :: l) = ']' :: l :=
          fun l => skipWs_cons ']' l (by decide)
        rcases dumpsItems_cons_struct v1 vs1 with ⟨hvs1, hs⟩ | ⟨hvs1, hs⟩
        · subst hvs1
          rw [hs]
          have hv1 : parseVal f (dumpsChars v1 ++ ']' :: rest) = some (v1, ']' :: rest) :=
            (IH f (by omega)).1 v1 (']' :: rest) hok1.1 hnd1.1 hf1.1 rfl
          simp only [pai_step, hv1, hskB]
        · rw [hs]
          have hfull : (dumpsChars v1 ++ ',' :: ' ' :: dumpsItems vs1) ++ ']' :: rest
              = dumpsChars v1 ++ ',' :: ' ' :: (dumpsItems vs1 ++ ']' :: rest) := by simp
          rw [hfull]
          have hv1 : parseVal f (dumpsChars v1 ++ ',' :: ' '
                :: (dumpsItems vs1 ++ ']' :: rest))
              = some (v1, ',' :: ' ' :: (dumpsItems vs1 ++ ']' :: rest)) :=
            (IH f (by omega)).1 v1 _ hok1.1 hnd1.1 hf1.1 rfl
          have hrec : parseArrItems f (dumpsItems vs1 ++ ']' :: rest) = some (vs1, rest) :=
            (IH f (by omega)).2.1 vs1 rest hvs1 hok1.2 hnd1.2 hf1.2
          simp only [pai_step, hv1, hskC, parseArrItems_cons_space, hrec, Option.map_some']
    · intro fl rest hne hok hnd hf
      obtain ⟨f, rfl⟩ : ∃ f, fuel = f + 1 :=
        ⟨fuel - 1, by have := jfuelFields_pos fl hne; omega⟩
      cases fl with
      | nil => exact absurd rfl hne
      | cons kv fl' =>
        obtain ⟨k, v⟩ := kv
        have hok1 : dumps_ok v = true ∧ dumpsOkFields fl' = true := by
          have h2 : (dumps_ok (k, v).2 && dumpsOkFields fl') = true := hok
          simpa [Bool.and_eq_true] using h2
        have hnd1 : nodupDeep v = true ∧ nodupDeepFields fl' = true := by
          have h2 : (nodupDeep (k, v).2 && nodupDeepFields fl') = true := hnd
          simpa [Bool.and_eq_true] using h2
        have hf1 : jfuel v ≤ f ∧ jfuelFields fl' ≤ f := by
          have heq : jfuelFields ((k, v) :: fl') = 1 + max (jfuel v) (jfuelFields fl') := rfl
          rw [heq] at hf
          have hm : max (jfuel v) (jfuelFields fl') ≤ f := by omega
          exact ⟨le_trans (Nat.le_max_left _ _) hm, le_trans (Nat.le_max_right _ _) hm⟩
        have hskCol : ∀ l : List Char, skipWs (':' :: l) = ':' :: l :=
          fun l => skipWs_cons ':' l (by decide)
        have hskC : ∀ l : List Char, skipWs (',' :: l) = ',' :: l :=
          fun l => skipWs_cons ',' l (by decide)
        have hskR : ∀ l : List Char, skipWs ('\x7d' :: l) = '\x7d' :: l :=
          fun l => skipWs_cons '\x7d' l (by decide)
        rcases dumpsFields_cons_struct k v fl' with ⟨hfl0, hs⟩ | ⟨hfl0, hs⟩
        · subst hfl0
          have hfull : dumpsFields [(k, v)] ++ '\x7d' :: rest
              = '"' :: (escapeL k.data
                  ++ '"' :: (':' :: ' ' :: (dumpsChars v ++ '\x7d' :: rest))) := by
            rw [hs]
            simp
          have hv1 : parseVal f (' ' :: (dumpsChars v ++ '\x7d' :: rest))
              = some (v, '\x7d' :: rest) := by
            rw [parseVal_cons_space]
            exact (IH f (by omega)).1 v _ hok1.1 hnd1.1 hf1.1 rfl
          rw [hfull, poi_key]
          simp only [parseStrBody_escape, hskCol, hv1, hskR]
        · have hfull : dumpsFields ((k, v) :: fl') ++ '\x7d' :: rest
              = '"' :: (escapeL k.data ++ '"' :: (':' :: ' ' :: (dumpsChars v
                  ++ ',' :: ' ' :: (dumpsFields fl' ++ '\x7d' :: rest)))) := by
            rw [hs]
            simp
          have hv1 : parseVal f (' ' :: (dumpsChars v
                ++ ',' :: ' ' :: (dumpsFields fl' ++ '\x7d' :: rest)))
              = some (v, ',' :: ' ' :: (dumpsFields fl' ++ '\x7d' :: rest)) := by
            rw [parseVal_cons_space]
            exact (IH f (by omega)).1 v _ hok1.1 hnd1.1 hf1.1 rfl
          have hrec : parseObjItems f (dumpsFields fl' ++ '\x7d' :: rest)
              = some (fl', rest) :=
            (IH f (by omega)).2.2 fl' rest hfl0 hok1.2 hnd1.2 hf1.2
          rw [hfull, poi_key]
          simp only [parseStrBody_escape, hskCol, hv1, hskC, parseObjItems_cons_space,
            hrec, Option.map_some']

/-- The fuel need of a serializable value is bounded by its serialized
length (and the needs of element lists by length plus one). -/
theorem jfuel_le_aux : ∀ n : Nat,
    (∀ v : JValue, sizeOf v < n → dumps_ok v = true →
      jfuel v ≤ (dumpsChars v).length)
    ∧ (∀ vs : List JValue, sizeOf vs < n → dumpsOkList vs = true →
      jfuelItems vs ≤ (dumpsItems vs).length + 1)
    ∧ (∀ fs : List (String × JValue), sizeOf fs < n → dumpsOkFields fs = true →
      jfuelFields fs ≤ (dumpsFields fs).length + 1) := by
  intro n
  induction n using Nat.strong_induction_on with
  | _ n IH =>
    refine ⟨?_, ?_, ?_⟩
    · intro v hsz hok
      cases v with
      | null => simp [jfuel, dumpsChars]
      | bool b => cases b <;> simp [jfuel, dumpsChars]
      | int m =>
        obtain ⟨c, t, hl, _⟩ := intChars_head m
        show 1 ≤ (intChars m).length
        rw [hl]
        simp
      | float m e =>
        obtain ⟨c, t, hl, _⟩ := floatChars_head m e
        show 1 ≤ (floatChars m e).length
        rw [hl]
        simp
      | str s =>
        show 1 ≤ ('"' :: escapeL s.data ++ ['"']).length
        simp
      | time t => simp [dumps_ok] at hok
      | arr xs =>
        have hszx : sizeOf xs < sizeOf (JValue.arr xs) := by
          simp
        have hq := (IH (sizeOf (JValue.arr xs)) hsz).2.1 xs hszx hok
        show 1 + jfuelItems xs ≤ ('[' :: dumpsItems xs ++ [']']).length
        have hlen : ('[' :: dumpsItems xs ++ [']']).length
            = (dumpsItems xs).length + 2 := by
          simp only [List.length_cons, List.length_append, List.length_nil]
        rw [hlen]
        omega
      | obj fs =>
        have hszx : sizeOf fs < sizeOf (JValue.obj fs) := by
          simp
        have hq := (IH (sizeOf (JValue.obj fs)) hsz).2.2 fs hszx hok
        show 1 + jfuelFields fs ≤ ('\x7b' :: dumpsFields fs ++ ['\x7d']).length
        have hlen : ('\x7b' :: dumpsFields fs ++ ['\x7d']).length
            = (dumpsFields fs).length + 2 := by
          simp only [List.length_cons, List.length_append, List.length_nil]
        rw [hlen]
        omega
    · intro vs hsz hok
      cases vs with
      | nil => simp [jfuelItems, dumpsItems]
      | cons v vs' =>
        have hokv : dumps_ok v = true ∧ dumpsOkList vs' = true := by
          have h2 : (dumps_ok v && dumpsOkList vs') = true := hok
          simpa [Bool.and_eq_true] using h2
        have hszv : sizeOf v < sizeOf (v :: vs') := by
          simp only [List.cons.sizeOf_spec]
          omega
        have hszt : sizeOf vs' < sizeOf (v :: vs') := by
          simp only [List.cons.sizeOf_spec]
          omega
        have hp := (IH (sizeOf (v :: vs')) hsz).1 v hszv hokv.1
        cases vs' with
        | nil =>
          show 1 + max (jfuel v) (jfuelItems []) ≤ (dumpsChars v).length + 1
          have h0 : jfuelItems ([] : List JValue) = 0 := rfl
          rw [h0]
          have h3 : max (jfuel v) 0 ≤ (dumpsChars v).length :=
            Nat.max_le.mpr ⟨hp, by omega⟩
          omega
        | cons v2 vs2 =>
          have hq2 := (IH (sizeOf (v :: v2 :: vs2)) hsz).2.1 (v2 :: vs2) hszt hokv.2
          show 1 + max (jfuel v) (jfuelItems (v2 :: vs2))
              ≤ (dumpsChars v ++ ',' :: ' ' :: dumpsItems (v2 :: vs2)).length + 1
          have hlen : (dumpsChars v ++ ',' :: ' ' :: dumpsItems (v2 :: vs2)).length
              = (dumpsChars v).length + ((dumpsItems (v2 :: vs2)).length + 2) := by
            simp only [List.length_append, List.length_cons]
          rw [hlen]
          have h3 : max (jfuel v) (jfuelItems (v2 :: vs2))
              ≤ (dumpsChars v).length + ((dumpsItems (v2 :: vs2)).length + 2) :=
            Nat.max_le.mpr ⟨by omega, by omega⟩
          omega
    · intro fs hsz hok
      cases fs with
      | nil => simp [jfuelFields, dumpsFields]
      | cons kv fs' =>
        obtain ⟨k, v⟩ := kv
        have hokv : dumps_ok v = true ∧ dumpsOkFields fs' = true := by
          have h2 : (dumps_ok (k, v).2 && dumpsOkFields fs') = true := hok
          simpa [Bool.and_eq_true] using h2
        have hszv : sizeOf v < sizeOf ((k, v) :: fs') := by
          simp only [List.cons.sizeOf_spec, Prod.mk.sizeOf_spec]
          omega
        have hszt : sizeOf fs' < sizeOf ((k, v) :: fs') := by
          simp only [List.cons.sizeOf_spec]
          omega
        have hp := (IH (sizeOf ((k, v) :: fs')) hsz).1 v hszv hokv.1
        cases fs' with
        | nil =>
          show 1 + max (jfuel v) (jfuelFields [])
              ≤ ('"' :: escapeL k.data ++ '"' :: ':' :: ' ' :: dumpsChars v).length + 1
          have h0 : jfuelFields ([] : List (String × JValue)) = 0 := rfl
          rw [h0]
          have hlen : ('"' :: escapeL k.data ++ '"' :: ':' :: ' ' :: dumpsChars v).length
              = (escapeL k.data).length + ((dumpsChars v).length + 4) := by
            simp only [List.length_append, List.length_cons]
            omega
          rw [hlen]
          have h3 : max (jfuel v) 0
              ≤ (escapeL k.data).length + ((dumpsChars v).length + 4) :=
            Nat.max_le.mpr ⟨by omega, by omega⟩
          omega
        | cons kv2 fs2 =>
          have hq2 := (IH (sizeOf ((k, v) :: kv2 :: fs2)) hsz).2.2 (kv2 :: fs2) hszt hokv.2
          show 1 + max (jfuel v) (jfuelFields (kv2 :: fs2))
              ≤ ('"' :: escapeL k.data ++ '"' :: ':' :: ' ' :: dumpsChars v
                  ++ ',' :: ' ' :: dumpsFields (kv2 :: fs2)).length + 1
          have hlen : ('"' :: escapeL k.data ++ '"' :: ':' :: ' ' :: dumpsChars v
                  ++ ',' :: ' ' :: dumpsFields (kv2 :: fs2)).length
              = (escapeL k.data).length + ((dumpsChars v).length
                  + ((dumpsFields (kv2 :: fs2)).length + 6)) := by
            simp only [List.length_append, List.length_cons]
            omega
          rw [hlen]
          have h3 : max (jfuel v) (jfuelFields (kv2 :: fs2))
              ≤ (escapeL k.data).length + ((dumpsChars v).length
                  + ((dumpsFields (kv2 :: fs2)).length + 6)) :=
            Nat.max_le.mpr ⟨by omega, by omega⟩
          omega

/-- Key membership via `any` agrees with `recordGet`. -/
theorem any_key_eq_find (fields : Record) (k : String) :
    fields.any (fun kv => kv.1 == k) = (recordGet fields k).isSome := by
  induction fields with
  | nil => rfl
  | cons kv rest ih =>
    by_cases hk : kv.1 = k
    · simp [recordGet, List.find?_cons, hk]
    · have hb : (kv.1 == k) = false := by simpa using hk
      simpa [recordGet, List.any_cons, List.find?_cons, hb] using ih

/-- A native scalar passes through `convert_value` unchanged. -/
theorem convert_value_scalar (v : JValue) (h : isNativeScalar v = true) :
    convert_value v = .ok v := by
  cases v with
  | null => simp [isNativeScalar] at h
  | arr xs => simp [isNativeScalar] at h
  | obj fs => simp [isNativeScalar] at h
  | _ => rfl

/-! ### Claims -/

/-- C1: the Schema Inferrer assigns a column's type from its first sampled
value by the exact precedence boolean, integer, floating-point,
timestamp-or-ISO-text (trailing `Z` accepted), then text with maximum
length 255; in particular `"2024-01-15T10:30:00Z"` gives a timestamp
column, `"hello"` gives text, and a null first sample gives text. -/
theorem c1_infer_type_precedence :
    (∀ v, infer_type v = claimInferredType v)
    ∧ infer_type (.str "2024-01-15T10:30:00Z") = "DATETIME"
    ∧ infer_type (.str "hello") = "TEXT(255)"
    ∧ infer_type .null = "TEXT(255)"
    ∧ (∀ xs, infer_type (.arr xs) = "TEXT(255)")
    ∧ (∀ fs, infer_type (.obj fs) = "TEXT(255)") := by
  refine ⟨?_, by decide, by decide, rfl, fun xs => rfl, fun fs => rfl⟩
  intro v
  cases v <;>
    simp [infer_type, claimInferredType, isBoolJ, isIntJ, isFloatJ, isTimeJ,
      claimTextParsesIso, is_datetime]

/-- C2: first value wins — a column's type is the inferred type of the
first non-excluded occurrence of its key across the record list (record
order, then field order) and is never revised; in the concrete scenario an
integer-then-text key yields an integer column while the later record's
normalized row carries the raw text value unchanged. -/
theorem c2_first_value_wins :
    (∀ (records : List Record) (k : String), (k == "__metadata") = false →
      schemaLookup (extract_schema records) k
        = (records.flatten.find? (fun kv => kv.1 == k)).map (fun kv => infer_type kv.2))
    ∧ extract_schema [[("k", .int 1)], [("k", .str "x")]] = [("k", "INTEGER")]
    ∧ normalize_record [("k", .str "x")] [("k", "INTEGER")] = .ok [.str "x"] := by
  refine ⟨?_, rfl, rfl⟩
  intro records k hk
  rw [extract_schema_eq_flat]
  have h := foldl_schemaStep_lookup records.flatten [] k hk
  simpa [schemaLookup] using h

/-- C2 witness: a key first seen as an integer, later as text. -/
theorem c2_witness :
    ("Id" == "__metadata") = false
    ∧ schemaLookup (extract_schema [[("Id", JValue.int 1)], [("Id", JValue.str "x")]]) "Id"
      = some "INTEGER" := by
  refine ⟨by decide, ?_⟩
  rw [c2_first_value_wins.1 [[("Id", JValue.int 1)], [("Id", JValue.str "x")]] "Id" (by decide)]
  rfl

/-- C3: the Type Normalizer produces a row matching the schema's column
order and length exactly; an absent key gives null, an explicit null
passes through, and every native scalar passes through unchanged
regardless of the column's declared type. -/
theorem c3_normalizer_contract :
    ∀ (schema : Schema) (record : Record) (row : List JValue),
      normalize_record record schema = .ok row →
      row.length = schema.length
      ∧ (∀ (i : Nat) (col : String × String), schema[i]? = some col →
          recordGet record col.1 = none → row[i]? = some .null)
      ∧ (∀ (i : Nat) (col : String × String), schema[i]? = some col →
          recordGet record col.1 = some .null → row[i]? = some .null)
      ∧ (∀ (i : Nat) (col : String × String) (v : JValue), schema[i]? = some col →
          recordGet record col.1 = some v →
          isNativeScalar v = true → row[i]? = some v) := by
  intro schema
  induction schema with
  | nil =>
    intro record row h
    simp only [normalize_record] at h
    cases h
    refine ⟨rfl, ?_, ?_, ?_⟩
    · intro i col hcol; simp at hcol
    · intro i col hcol; simp at hcol
    · intro i col v hcol; simp at hcol
  | cons col0 rest ih =>
    intro record row h
    simp only [normalize_record] at h
    cases hv : convert_value ((recordGet record col0.1).getD .null) with
    | error e => rw [hv] at h; simp at h
    | ok v0 =>
      rw [hv] at h
      simp only [ok_bind] at h
      cases hr : normalize_record record rest with
      | error e => rw [hr] at h; simp at h
      | ok row' =>
        rw [hr] at h
        simp only [ok_bind, pure_eq_ok] at h
        cases h
        obtain ⟨hlen, hnone, hnull, hscalar⟩ := ih record row' hr
        refine ⟨by simp [hlen], ?_, ?_, ?_⟩
        · intro i col hcol hget
          cases i with
          | zero =>
            simp only [List.getElem?_cons_zero, Option.some_inj] at hcol
            subst hcol
            rw [hget] at hv
            simp only [Option.getD_none] at hv
            have hnn : v0 = JValue.null := by
              have h2 : Except.ok (ε := PyError) JValue.null = Except.ok v0 := by
                rw [← hv]; rfl
              injection h2 with h2
              exact h2.symm
            simp [hnn]
          | succ n =>
            simp only [List.getElem?_cons_succ] at hcol ⊢
            exact hnone n col hcol hget
        · intro i col hcol hget
          cases i with
          | zero =>
            simp only [List.getElem?_cons_zero, Option.some_inj] at hcol
            subst hcol
            rw [hget] at hv
            simp only [Option.getD_some] at hv
            have hnn : v0 = JValue.null := by
              have h2 : Except.ok (ε := PyError) JValue.null = Except.ok v0 := by
                rw [← hv]; rfl
              injection h2 with h2
              exact h2.symm
            simp [hnn]
          | succ n =>
            simp only [List.getElem?_cons_succ] at hcol ⊢
            exact hnull n col hcol hget
        · intro i col v hcol hget hs
          cases i with
          | zero =>
            simp only [List.getElem?_cons_zero, Option.some_inj] at hcol
            subst hcol
            rw [hget] at hv
            simp only [Option.getD_some] at hv
            rw [convert_value_scalar v hs] at hv
            have : v = v0 := by cases hv; rfl
            simp [this]
          | succ n =>
            simp only [List.getElem?_cons_succ] at hcol ⊢
            exact hscalar n col v hcol hget hs

/-- C3 witness: a two-column schema against a one-field record — the
scalar passes through in position zero, the missing key gives null in
position one, and the lengths agree. -/
theorem c3_witness :
    ([JValue.int 1, JValue.null] : List JValue).length
      = ([("a", "INTEGER"), ("b", "TEXT(255)")] : Schema).length
    ∧ ([JValue.int 1, JValue.null] : List JValue)[1]? = some JValue.null
    ∧ ([JValue.int 1, JValue.null] : List JValue)[0]? = some (JValue.int 1) := by
  have h := c3_normalizer_contract [("a", "INTEGER"), ("b", "TEXT(255)")]
      [("a", JValue.int 1)] [JValue.int 1, JValue.null] rfl
  exact ⟨h.1, h.2.1 1 ("b", "TEXT(255)") rfl rfl,
    h.2.2.2 0 ("a", "INTEGER") (JValue.int 1) rfl rfl rfl⟩

/-- C5: the parent schema's column count is the number of distinct keys
across all parent records, the children field (`Communications`) and the
metadata key (`__metadata`) excluded. -/
theorem c5_parent_column_count :
    ∀ records : List Record, records ≠ [] →
      (extract_schema (records.map (fun r =>
          r.filter (fun kv => !(kv.1 == "Communications"))))).length
        = ((dedupAux [] (records.flatten.map Prod.fst)).filter
            (fun k => !(k == "Communications") && !(k == "__metadata"))).length := by
  intro records _
  have hmf : ∀ l : List (String × JValue),
      (l.filter (fun kv => !(kv.1 == "Communications"))).map Prod.fst
        = (l.map Prod.fst).filter (fun k => !(k == "Communications")) := by
    intro l
    induction l with
    | nil => rfl
    | cons kv rest ih =>
      by_cases h : kv.1 = "Communications" <;>
        simp [List.filter_cons, h, ih]
  have hkeys :
      (extract_schema (records.map (fun r =>
          r.filter (fun kv => !(kv.1 == "Communications"))))).map Prod.fst
        = dedupAux [] ((records.flatten.map Prod.fst).filter
            (fun k => !(k == "Communications") && !(k == "__metadata"))) := by
    rw [extract_schema_eq_flat]
    have h0 := foldl_schemaStep_keys
        (records.map (fun r => r.filter (fun kv => !(kv.1 == "Communications")))).flatten []
    simp only [List.map_nil, List.nil_append] at h0
    rw [h0]
    congr 1
    rw [← List.filter_flatten, hmf records.flatten, List.filter_filter]
    exact List.filter_congr (fun k _ => Bool.and_comm _ _)
  calc (extract_schema (records.map (fun r =>
          r.filter (fun kv => !(kv.1 == "Communications"))))).length
      = ((extract_schema (records.map (fun r =>
          r.filter (fun kv => !(kv.1 == "Communications"))))).map Prod.fst).length := by
        rw [List.length_map]
    _ = (dedupAux [] ((records.flatten.map Prod.fst).filter
            (fun k => !(k == "Communications") && !(k == "__metadata")))).length := by
        rw [hkeys]
    _ = ((dedupAux [] (records.flatten.map Prod.fst)).filter
            (fun k => !(k == "Communications") && !(k == "__metadata"))).length := by
        rw [filter_dedupAux _ (records.flatten.map Prod.fst) [] []
          (fun k _ => Iff.rfl)]

/-- C5 witness: one record carrying a data key, the children field and
the metadata key. -/
theorem c5_witness :
    ([[("Id", JValue.int 1), ("Communications", JValue.obj []),
       ("__metadata", JValue.null)]] : List Record) ≠ []
    ∧ (extract_schema (([[("Id", JValue.int 1), ("Communications", JValue.obj []),
         ("__metadata", JValue.null)]] : List Record).map (fun r =>
          r.filter (fun kv => !(kv.1 == "Communications"))))).length
      = ((dedupAux [] (([[("Id", JValue.int 1), ("Communications", JValue.obj []),
          ("__metadata", JValue.null)]] : List Record).flatten.map Prod.fst)).filter
          (fun k => !(k == "Communications") && !(k == "__metadata"))).length :=
  ⟨by simp, c5_parent_column_count _ (by simp)⟩

/-- C6: the Loader's parent projection drops exactly the `Communications`
field, leaving every other field unchanged in order, and when that field
is an object containing a `results` array the array's elements become the
child records unmodified, in order (no validation, no key injection). -/
theorem c6_parent_projection_and_children :
    (∀ (fields copy : Record) (comms : List JValue),
        processOrg (.obj fields) = .ok (copy, comms) →
        copy = fields.filter (fun kv => !(kv.1 == "Communications")))
    ∧ (∀ (fields cf : Record) (xs : List JValue),
        recordGet fields "Communications" = some (.obj cf) →
        recordGet cf "results" = some (.arr xs) →
        processOrg (.obj fields)
          = .ok (fields.filter (fun kv => !(kv.1 == "Communications")), xs))
    ∧ (∀ fields : Record,
        recordGet fields "Communications" = none →
        processOrg (.obj fields)
          = .ok (fields.filter (fun kv => !(kv.1 == "Communications")), [])) := by
  refine ⟨?_, ?_, ?_⟩
  · intro fields copy comms h
    simp only [processOrg, pyItems, ok_bind] at h
    by_cases hc : fields.any (fun kv => kv.1 == "Communications") = true
    · rw [if_pos hc] at h
      have hsome : (recordGet fields "Communications").isSome := by
        rw [← any_key_eq_find]; exact hc
      obtain ⟨c, hcv⟩ := Option.isSome_iff_exists.mp hsome
      rw [show pyIndex (JValue.obj fields) "Communications" = .ok c by
        simp [pyIndex, hcv]] at h
      simp only [ok_bind] at h
      cases hb : pyContains c "results" with
      | error e => rw [hb] at h; simp at h
      | ok b =>
        rw [hb] at h
        simp only [ok_bind] at h
        by_cases hbv : b = true
        · rw [if_pos hbv] at h
          cases hr : pyIndex c "results" with
          | error e => rw [hr] at h; simp at h
          | ok r =>
            rw [hr] at h
            simp only [ok_bind] at h
            cases hit : pyIterate r with
            | error e => rw [hit] at h; simp at h
            | ok comms' =>
              rw [hit] at h
              simp only [ok_bind, pure_eq_ok] at h
              cases h
              rfl
        · rw [if_neg hbv] at h
          simp only [pure_eq_ok] at h
          cases h
          rfl
    · rw [if_neg hc] at h
      simp only [pure_eq_ok] at h
      cases h
      rfl
  · intro fields cf xs hcomm hres
    have hany : fields.any (fun kv => kv.1 == "Communications") = true := by
      rw [any_key_eq_find, hcomm]; rfl
    simp only [processOrg, pyItems, ok_bind]
    rw [if_pos hany]
    rw [show pyIndex (JValue.obj fields) "Communications" = .ok (.obj cf) by
      simp [pyIndex, hcomm]]
    simp only [ok_bind]
    have hb : pyContains (.obj cf) "results" = .ok true := by
      simp only [pyContains]
      rw [any_key_eq_find, hres]
      rfl
    rw [hb]
    simp only [ok_bind, if_true]
    rw [show pyIndex (JValue.obj cf) "results" = .ok (.arr xs) by
      simp [pyIndex, hres]]
    simp only [ok_bind]
    rfl
  · intro fields hnone
    have hany : fields.any (fun kv => kv.1 == "Communications") = false := by
      rw [any_key_eq_find, hnone]; rfl
    simp [processOrg, pyItems, hany]

/-- C6 witness: a record with one data field and a `Communications`
object holding one child. -/
theorem c6_witness :
    processOrg (.obj [("Id", JValue.int 1),
        ("Communications", .obj [("results", .arr [.obj [("OrgId", JValue.int 1)]])])])
      = .ok ([("Id", JValue.int 1)], [.obj [("OrgId", JValue.int 1)]]) := by
  have h := c6_parent_projection_and_children.2.1
      [("Id", JValue.int 1),
       ("Communications", JValue.obj [("results", JValue.arr [JValue.obj [("OrgId", JValue.int 1)]])])]
      [("results", JValue.arr [JValue.obj [("OrgId", JValue.int 1)]])]
      [JValue.obj [("OrgId", JValue.int 1)]] rfl rfl
  simpa using h

/-- C7: round trip for composite values.  For every array or object value
that a Python run can hold (serializable, duplicate-free keys), the
Normalizer's `convert_value` serializes it to a JSON text, and `json.loads`
on that text returns a structurally equal value; moreover every printable
character other than the quote and the backslash — in particular every
non-ASCII character — is emitted unescaped. -/
theorem c7_composite_round_trip :
    (∀ v : JValue, isCompositeJ v = true → jsonSafe v = true →
      ∃ s : String, convert_value v = .ok (.str s) ∧ json_loads s = some v)
    ∧ ∀ c : Char, 32 ≤ c.toNat → ¬ c = '"' → ¬ c = '\\' → escChar c = [c] := by
  constructor
  · intro v hcomp hsafe
    have hsplit : dumps_ok v = true ∧ nodupDeep v = true := by
      have h2 : (dumps_ok v && nodupDeep v) = true := hsafe
      simpa [Bool.and_eq_true] using h2
    refine ⟨String.mk (dumpsChars v), ?_, ?_⟩
    · cases v with
      | arr xs =>
        simp [convert_value, json_dumps, hsplit.1, Except.map]
      | obj fs =>
        simp [convert_value, json_dumps, hsplit.1, Except.map]
      | null => simp [isCompositeJ] at hcomp
      | bool b => simp [isCompositeJ] at hcomp
      | int m => simp [isCompositeJ] at hcomp
      | float m e => simp [isCompositeJ] at hcomp
      | str s => simp [isCompositeJ] at hcomp
      | time t => simp [isCompositeJ] at hcomp
    · have hfuel : jfuel v ≤ (dumpsChars v).length + 1 := by
        have := (jfuel_le_aux (sizeOf v + 1)).1 v (by omega) hsplit.1
        omega
      have hj := (parse_round ((dumpsChars v).length + 1)).1 v [] hsplit.1 hsplit.2 hfuel rfl
      rw [List.append_nil] at hj
      show (match parseVal ((dumpsChars v).length + 1) (dumpsChars v) with
        | some (w, rest) => if (skipWs rest).isEmpty then some w else none
        | none => none) = some v
      rw [hj]
      rfl
  · intro c hge hq hbs
    have hne : ∀ d : Char, d.toNat < 32 → ¬ c = d := fun d hd e => by
      rw [e] at hge
      omega
    simp [escChar, hq, hbs, hne '\x08' (by decide), hne '\t' (by decide),
      hne '\n' (by decide), hne '\x0c' (by decide), hne '\r' (by decide),
      Nat.not_lt.mpr hge]

theorem c7_witness :
    (∃ s : String,
      convert_value (JValue.obj [("k", JValue.arr [JValue.int 1, JValue.str "é"])])
          = .ok (.str s)
        ∧ json_loads s
          = some (JValue.obj [("k", JValue.arr [JValue.int 1, JValue.str "é"])]))
    ∧ escChar 'é' = ['é'] :=
  ⟨c7_composite_round_trip.1 _ rfl rfl,
   c7_composite_round_trip.2 'é' (by decide) (by decide) (by decide)⟩

/-- C8: schema inference is deterministic — it is a function of the record
list alone, and the column order is exactly the first-encounter order of
the non-metadata keys. -/
theorem c8_deterministic_inference :
    ∀ records : List Record,
      extract_schema records = extract_schema records
      ∧ (extract_schema records).map Prod.fst = orderedKeys records := by
  intro records
  refine ⟨rfl, ?_⟩
  rw [extract_schema_eq_flat]
  simpa [orderedKeys] using foldl_schemaStep_keys records.flatten []

/-- C4 counterexample: for the well-formed input `3` the fixed path
`d.results` does not resolve to a non-empty array, yet loading fails with
an attribute error, not with the missing-data error the claim requires. -/
theorem c4_counterexample_attribute_error :
    claimPathResolvesNonEmpty (.int 3) = false
    ∧ load_json (.wellFormed (.int 3)) = .error .attributeError
    ∧ PyError.attributeError ≠ PyError.missingDataError :=
  ⟨rfl, rfl, by decide⟩

/-- C4 (amended): loading fails with `NotFoundError` when the input file
does not exist and with `ParseError` when the input is not well-formed
JSON, in both cases before any store effect; it fails with
`MissingDataError` — again with no store effect, so the destination is
untouched — exactly when the `get`-with-default chain for `d.results`
succeeds (the top level is an object and its `d` member, when present, is
an object) and yields a falsy value, the empty `results` array included;
well-formed inputs on which that chain itself breaks raise a dynamic
error instead (see the counterexample). -/
theorem c4_error_taxonomy :
    (∀ e t, convert .missingFile e t = (.error .notFoundError, []))
    ∧ (∀ e t, convert .malformed e t = (.error .parseError, []))
    ∧ (∀ (v d data : JValue) (e t : Bool),
        pyGetDefault v "d" (.obj []) = .ok d →
        pyGetDefault d "results" (.arr []) = .ok data →
        pyTruthy data = false →
        convert (.wellFormed v) e t = (.error .missingDataError, [])) := by
  refine ⟨fun e t => rfl, fun e t => rfl, ?_⟩
  intro v d data e t h1 h2 h3
  have hload : load_json (.wellFormed v) = .error .missingDataError := by
    simp [load_json, h1, h2, h3]
  simp [convert, hload]

/-- C4 witness: the empty-results input raises `MissingDataError` with no
store effect. -/
theorem c4_witness :
    pyGetDefault (.obj [("d", .obj [("results", .arr [])])]) "d" (.obj [])
      = .ok (.obj [("results", .arr [])])
    ∧ pyTruthy (.arr []) = false
    ∧ convert (.wellFormed (.obj [("d", .obj [("results", .arr [])])])) true true
      = (.error .missingDataError, []) :=
  ⟨rfl, rfl, c4_error_taxonomy.2.2 _ _ _ true true rfl rfl rfl⟩

/-- C9: when the destination file exists and no template path is given,
the run deletes the destination first and only then fails with the
missing-template error, leaving the output state changed. -/
theorem c9_delete_before_template_error :
    ∀ (src : JsonSource) (out : LoadOut), load_json src = .ok out →
      convert src true false = (.error .templateError, [FsOp.removeMdb]) := by
  intro src out h
  simp [convert, h, create_mdb]

/-- C9 witness: a run on a one-record document with an existing
destination and no template. -/
theorem c9_witness :
    convert (.wellFormed (.obj [("d", .obj [("results",
        .arr [.obj [("Id", .int 1)]])])])) true false
      = (.error .templateError, [FsOp.removeMdb]) :=
  c9_delete_before_template_error _ _ rfl

/-- C10: the loader is not total over well-formed inputs: when a parent's
`Communications` field is the string `"my results"` (substring membership
makes the `"results" in …` test succeed) or the array `["results"]`
(element membership), loading raises a `TypeError`, which is outside the
documented error taxonomy. -/
theorem c10_loader_not_total :
    load_json (.wellFormed (.obj [("d", .obj [("results", .arr [
        .obj [("Communications", .str "my results")]])])]))
      = .error .typeError
    ∧ load_json (.wellFormed (.obj [("d", .obj [("results", .arr [
        .obj [("Communications", .arr [.str "results"])]])])]))
      = .error .typeError
    ∧ PyError.typeError ≠ PyError.notFoundError
    ∧ PyError.typeError ≠ PyError.parseError
    ∧ PyError.typeError ≠ PyError.missingDataError :=
  ⟨rfl, rfl, by decide, by decide, by decide⟩

end Json2Mdb
